import Mathlib

/-!
# A verification model of daab's `RawCache` (`src/cache/internal.rs`)

This file embeds the cache engine of the `daab` crate in Lean 4 and proves
or refutes the specification claims about it.

Modelling conventions:

* `BuilderId` (a `*const dyn Any` in the source) is modelled as `Nat`.
* `HashMap` tables are modelled as association lists `List (BuilderId × V)`
  with `find?` / `insertRep` / `eraseKey`; `HashSet`s of ids as `List Nat`
  with member-checked insertion.
* A type-erased can (`ArtCan` / `Box<dyn Any>`) is modelled as a value paired
  with a runtime type tag; `downcast` succeeds exactly when the tag matches,
  and a failed `expect` is modelled by the `Res.abort` outcome (the Rust
  process aborts via `panic`).
* A builder (the `Builder` trait object behind a promise) is a record of its
  artifact type tag, its dyn-state type tag, `init_dyn_state`, the list of
  promises its `build` resolves (a function of the dyn state observed at the
  start of the build), and the build computation itself (`Result` valued).
  A world `W : World` assigns a builder to every id, which models that each
  promise carries its builder.
* Rust recursion (`build` resolving dependencies, `invalidate_any`) is
  modelled with a structural fuel parameter; exhaustion is the distinguished
  `Res.fuel` outcome and sufficiency is proved where needed.
* The field `built_with` is specification-only instrumentation (a ghost
  field): it records, for each id, the promises resolved by the build that
  produced the currently cached artifact.  No operation reads it.
* `Rc` weak-upgrade semantics (strong count positive) is modelled twice:
  `upgrade_from_weak` takes the resulting liveness assignment as a
  parameter (all that `garbage_collection` observes), while
  `rc_upgrade_from_weak` computes it from external strong handles plus the
  strong builder cans the super carrier stores inside cached artifact
  values (`BuilderEntry`, canning.rs).
-/

namespace Daab

abbrev BuilderId := Nat

abbrev Val := Nat

/-- A type-erased artifact can: the payload together with the runtime tag of
its concrete type (`downcast_can` succeeds iff the tag matches). -/
structure ArtCan where
  tag : Nat
  val : Val
deriving DecidableEq, Repr

/-- A type-erased dynamic state box (`Box<dyn Any>`), as for `ArtCan`. -/
structure DynCan where
  tag : Nat
  val : Val
deriving DecidableEq, Repr

/-- A weak handle (`CanWeak`, i.e. `std::rc::Weak`): it refers to its target
builder without keeping it alive; `upgrade_from_weak` consults only the
external strong count of the target. -/
structure Weak where
  target : BuilderId
deriving DecidableEq, Repr

/-- `HashMap::get` on the association-list model of a table. -/
def find? {V : Type} : List (BuilderId × V) → BuilderId → Option V
  | [], _ => none
  | (k, v) :: rest, i => if k = i then some v else find? rest i

/-- `HashMap::insert` (replace an existing entry, else append). -/
def insertRep {V : Type} : List (BuilderId × V) → BuilderId → V → List (BuilderId × V)
  | [], k, v => [(k, v)]
  | (k0, v0) :: rest, k, v =>
      if k0 = k then (k, v) :: rest else (k0, v0) :: insertRep rest k v

/-- `HashMap::remove` (drop every entry with the given key). -/
def eraseKey {V : Type} (m : List (BuilderId × V)) (k : BuilderId) :
    List (BuilderId × V) :=
  m.filter (fun kv => kv.1 ≠ k)

/-- The one-per-builder tables of `RawCache` (`src/cache/internal.rs`,
lines 92-114), plus the ghost field `built_with` (see the file docstring). -/
structure RawCache where
  artifacts : List (BuilderId × ArtCan)
  dyn_states : List (BuilderId × DynCan)
  dependents : List (BuilderId × List BuilderId)
  known_builders : List (BuilderId × Weak)
  built_with : List (BuilderId × List BuilderId)
deriving DecidableEq, Repr

/-- `RawCache::new`. -/
def RawCache.new : RawCache :=
  { artifacts := [], dyn_states := [], dependents := [],
    known_builders := [], built_with := [] }

/-- A builder behind a promise: artifact type tag, dyn-state type tag,
`init_dyn_state`, the promises its `build` resolves (as a function of the
dyn state it observes), and the result it computes from the dyn state and
the resolved artifacts (`Err` values are `Val`s as well). -/
structure Builder where
  artTag : Nat
  dynTag : Nat
  initDyn : Val
  deps : Val → List BuilderId
  buildFn : Val → List Val → Except Val Val

/-- A world assigns to every id the builder owning it (a promise in the
source is a strong handle on its builder; the id determines the builder
while it is alive). -/
abbrev World := BuilderId → Builder

/-- Outcome of a cache operation: success, a builder error propagated to the
caller, a process abort from a failed downcast `expect`, or exhaustion of
the modelling fuel (which has no Rust counterpart). -/
inductive Res (α : Type) where
  | ok : α → Res α
  | err : Val → Res α
  | abort : Res α
  | fuel : Res α
deriving DecidableEq, Repr

namespace Res

/-- Transport a non-`ok` outcome to another result type. -/
def castFail {α β : Type} : Res α → Res β
  | .ok _ => .fuel
  | .err e => .err e
  | .abort => .abort
  | .fuel => .fuel

end Res

/-- Result of `RawCache::lookup` (internal.rs lines 211-229): absent, or the
downcast of the stored can, which `expect`s the tag to match. -/
inductive Looked where
  | miss : Looked
  | hit : Val → Looked
  | bad : Looked
deriving DecidableEq, Repr

/-- `RawCache::lookup` / `lookup_ref` / `lookup_cloned`: fetch the stored
artifact and downcast it, aborting on a tag mismatch. -/
def lookupArt (W : World) (s : RawCache) (p : BuilderId) : Looked :=
  match find? s.artifacts p with
  | none => .miss
  | some c => if c.tag = (W p).artTag then .hit c.val else .bad

/-- `RawCache::make_builder_known` (internal.rs lines 658-670):
`known_builders.entry(bid).or_insert_with(|| promise.canned().can.downgrade())`. -/
def make_builder_known (s : RawCache) (p : BuilderId) : RawCache :=
  match find? s.known_builders p with
  | some _ => s
  | none => { s with known_builders := insertRep s.known_builders p ⟨p⟩ }

/-- `RawCache::ensure_dyn_state` (internal.rs lines 448-464):
`dyn_states.entry(id).or_insert_with(|| Box::new(init_dyn_state()))`
followed by the `downcast_mut().expect(..)`. -/
def ensure_dyn_state (W : World) (s : RawCache) (p : BuilderId) :
    Res Val × RawCache :=
  match find? s.dyn_states p with
  | some d =>
      if d.tag = (W p).dynTag then (.ok d.val, s) else (.abort, s)
  | none =>
      (.ok (W p).initDyn,
        { s with dyn_states :=
            insertRep s.dyn_states p ⟨(W p).dynTag, (W p).initDyn⟩ })

/-- The recorded dependent set of an id (empty when the entry is absent). -/
def findSet (m : List (BuilderId × List BuilderId)) (p : BuilderId) :
    List BuilderId :=
  (find? m p).getD []

/-- `HashSet::insert` into the `dependents` entry of a promise:
`dependents.entry(promise.id()).or_insert_with(HashSet::new).insert(user.id())`
(`RawCache::track_dependency`, internal.rs lines 187-206). -/
def track_dependency (s : RawCache) (user promise : BuilderId) : RawCache :=
  let set0 := findSet s.dependents promise
  let set1 := if user ∈ set0 then set0 else user :: set0
  { s with dependents := insertRep s.dependents promise set1 }

/-- Modelled from the spec: `Resolver::resolve` lives in `src/cache/mod.rs`,
which is not part of the sources; per §4.4 of the spec it "returns a
shared/cloned form of the dependency's artifact, building if needed, and
records the edge `user → h.id` in `dependents[h.id]`" (the pre-`RawCache`
`ArtifactCache::do_resolve` in `src/lib.rs` has the same record-then-get
shape).  `resolveSteps g user l` resolves the promises `l` for the building
`user` in order, with `g` the artifact getter (`RawCache::get` at the
current recursion depth), and collects the resolved values. -/
def resolveSteps (g : BuilderId → RawCache → Res Val × RawCache)
    (user : BuilderId) :
    List BuilderId → RawCache → Res (List Val) × RawCache
  | [], s => (.ok [], s)
  | d :: rest, s =>
      let s1 := track_dependency s user d
      match g d s1 with
      | (.ok v, s2) =>
          match resolveSteps g user rest s2 with
          | (.ok vs, s3) => (.ok (v :: vs), s3)
          | (r, s3) => (r.castFail, s3)
      | (r, s2) => (r.castFail, s2)

/-- The body of `RawCache::build` (internal.rs lines 297-357), parameterised
by the getter `g` used by the resolver for dependencies: register the
builder, ensure its dyn state, run `Builder::build` with a resolver bound to
this builder, and on success insert the artifact (replacing any prior
entry) and return it.  The ghost field `built_with` records the resolved
promise list of the successful build. -/
def buildStep (W : World) (g : BuilderId → RawCache → Res Val × RawCache)
    (p : BuilderId) (s : RawCache) : Res Val × RawCache :=
  let s0 := make_builder_known s p
  match ensure_dyn_state W s0 p with
  | (.ok st, s1) =>
      let ds := (W p).deps st
      match resolveSteps g p ds s1 with
      | (.ok vals, s2) =>
          match (W p).buildFn st vals with
          | .ok a =>
              (.ok a,
                { s2 with
                    artifacts := insertRep s2.artifacts p ⟨(W p).artTag, a⟩,
                    built_with := insertRep s2.built_with p ds })
          | .error e => (.err e, s2)
      | (r, s2) => (r.castFail, s2)
  | (r, s1) => (r.castFail, s1)

/-- One unfolding of `RawCache::get` (internal.rs lines 362-381): look the
artifact up, return it on a hit, and otherwise build with the getter `g`
serving the resolver. -/
def getStep (W : World) (g : BuilderId → RawCache → Res Val × RawCache)
    (p : BuilderId) (s : RawCache) : Res Val × RawCache :=
  match lookupArt W s p with
  | .hit v => (.ok v, s)
  | .bad => (.abort, s)
  | .miss => buildStep W g p s

/-- Fuel-exhausted bottom of the `get` recursion: the lookup itself involves
no recursion, only a miss does. -/
def getBase (W : World) (p : BuilderId) (s : RawCache) : Res Val × RawCache :=
  match lookupArt W s p with
  | .hit v => (.ok v, s)
  | .bad => (.abort, s)
  | .miss => (.fuel, s)

/-- `RawCache::get` with structural fuel: each nested dependency build runs
one fuel level lower.  (The Rust recursion is unbounded; acyclic dependency
graphs, which the crate requires, stay within `rank`-bounded depth.) -/
def getFuel (W : World) : Nat → BuilderId → RawCache → Res Val × RawCache
  | 0 => getBase W
  | f + 1 => getStep W (getFuel W f)

/-- `RawCache::get_ref` (internal.rs lines 385-403): same lookup-or-build
flow as `get`; the borrowed form of an artifact carries the same value. -/
def getRefFuel (W : World) : Nat → BuilderId → RawCache → Res Val × RawCache
  | 0 => getBase W
  | f + 1 => getStep W (getFuel W f)

/-- `RawCache::get_cloned` (internal.rs lines 431-443):
`self.get_ref(promise).map(|art| art.clone())`. -/
def getClonedFuel (W : World) (f : Nat) (p : BuilderId) (s : RawCache) :
    Res Val × RawCache :=
  getRefFuel W f p s

/-- `RawCache::invalidate_any` (internal.rs lines 581-593) with structural
fuel: remove the dependents entry of the builder, recursively invalidate
each recorded dependent, then remove the builder's artifact. -/
def invAnyStep (g : RawCache → BuilderId → RawCache) (s : RawCache)
    (b : BuilderId) : RawCache :=
  match find? s.dependents b with
  | some set =>
      let s1 := { s with dependents := eraseKey s.dependents b }
      let s2 := set.foldl g s1
      { s2 with artifacts := eraseKey s2.artifacts b }
  | none => { s with artifacts := eraseKey s.artifacts b }

/-- Fuelled `invalidate_any`; each nesting level removes a `dependents` key
first, so `dependents.length + 1` fuel always suffices. -/
def invalidateAnyFuel : Nat → RawCache → BuilderId → RawCache
  | 0 => fun s _ => s
  | f + 1 => invAnyStep (invalidateAnyFuel f)

/-- `invalidate_any` at its sufficient fuel. -/
def invalidate_any (s : RawCache) (b : BuilderId) : RawCache :=
  invalidateAnyFuel (s.dependents.length + 1) s b

/-- `RawCache::invalidate_dependents` (internal.rs lines 598-604): like
`invalidate_any` but the builder's own artifact is kept. -/
def invalidate_dependents (s : RawCache) (b : BuilderId) : RawCache :=
  match find? s.dependents b with
  | some set =>
      let s1 := { s with dependents := eraseKey s.dependents b }
      set.foldl (invalidateAnyFuel s.dependents.length) s1
  | none => s

/-- `RawCache::cleanup_unused_weak_refs` (internal.rs lines 645-654): drop
every `known_builders` entry whose id is in neither `artifacts` nor
`dyn_states`. -/
def cleanup_unused_weak_refs (s : RawCache) : RawCache :=
  { s with known_builders :=
      s.known_builders.filter (fun kv =>
        (find? s.artifacts kv.1).isSome || (find? s.dyn_states kv.1).isSome) }

/-- `RawCache::invalidate` (internal.rs lines 609-625): cascade from the
promise, then clean up unused weak references. -/
def invalidate (s : RawCache) (p : BuilderId) : RawCache :=
  cleanup_unused_weak_refs (invalidate_any s p)

/-- `RawCache::lookup_mut` (internal.rs lines 254-276): invalidate the
dependents of the promise, then fetch and downcast its artifact. -/
def lookupMutStage (W : World) (s : RawCache) (p : BuilderId) :
    Looked × RawCache :=
  let s1 := invalidate_dependents s p
  (lookupArt W s1 p, s1)

/-- `RawCache::get_mut` (internal.rs lines 407-427): `lookup_mut`, and build
on a miss.  (The source calls `lookup_mut` twice in the hit branch; the
second `invalidate_dependents` is a no-op because the first call already
removed the `dependents` entry of `p`.) -/
def getMutFuel (W : World) (fuel : Nat) (p : BuilderId) (s : RawCache) :
    Res Val × RawCache :=
  match lookupMutStage W s p with
  | (.hit v, s1) => (.ok v, s1)
  | (.bad, s1) => (.abort, s1)
  | (.miss, s1) =>
      match fuel with
      | 0 => (.fuel, s1)
      | f + 1 => buildStep W (getFuel W f) p s1

/-- `RawCache::dyn_state` (internal.rs lines 508-520): `ensure_dyn_state`
and return the state by shared reference.  Note the source registers
nothing in `known_builders` here. -/
def dyn_state (W : World) (s : RawCache) (p : BuilderId) : Res Val × RawCache :=
  ensure_dyn_state W s p

/-- `RawCache::dyn_state_mut` (internal.rs lines 492-504): invalidate the
promise, then `ensure_dyn_state`. -/
def dyn_state_mut (W : World) (s : RawCache) (p : BuilderId) :
    Res Val × RawCache :=
  ensure_dyn_state W (invalidate s p) p

/-- Modelled from the spec: `set_dyn_state` belongs to the `Cache` wrapper in
`src/cache/mod.rs`, which is not part of the sources; per §4.5 it "replaces;
same invalidation semantics as `dyn_state_mut`" (equivalently: a write
through the reference returned by `RawCache::dyn_state_mut`). -/
def set_dyn_state (W : World) (s : RawCache) (p : BuilderId) (v : Val) :
    RawCache :=
  let s1 := invalidate s p
  { s1 with dyn_states := insertRep s1.dyn_states p ⟨(W p).dynTag, v⟩ }

/-- `RawCache::get_dyn_state` (internal.rs lines 524-532), via
`cast_dyn_state_ref`: read-only and non-creating; a stored state of the
wrong type aborts. -/
def get_dyn_state (W : World) (s : RawCache) (p : BuilderId) :
    Res (Option Val) :=
  match find? s.dyn_states p with
  | none => .ok none
  | some d => if d.tag = (W p).dynTag then .ok (some d.val) else .abort

/-- `RawCache::purge` (internal.rs lines 536-553): drop the weak reference,
the artifact and the dyn state of the promise, then invalidate it. -/
def purge (s : RawCache) (p : BuilderId) : RawCache :=
  let s1 := { s with
      known_builders := eraseKey s.known_builders p,
      artifacts := eraseKey s.artifacts p,
      dyn_states := eraseKey s.dyn_states p }
  invalidate s1 p

/-- `RawCache::clear_artifacts` (internal.rs lines 557-563). -/
def clear_artifacts (s : RawCache) : RawCache :=
  cleanup_unused_weak_refs { s with artifacts := [], dependents := [] }

/-- `RawCache::clear_all` (internal.rs lines 568-576). -/
def clear_all (_s : RawCache) : RawCache :=
  RawCache.new

/-- `CanStrong::upgrade_from_weak` for the `Rc` can (`src/canning.rs` lines
138-148) under an ambient liveness assignment: `alive` records which
builder allocations still have a positive strong count at collection time,
and a weak upgrades exactly for those.  Which assignments actually arise —
external strong handles together with strong builder cans held inside
cached artifact values — is modelled by `rc_upgrade_from_weak` further
down. -/
def upgrade_from_weak (alive : BuilderId → Bool) (w : Weak) :
    Option BuilderId :=
  if alive w.target then some w.target else none

/-- One reclamation step of `garbage_collection`: cascade-invalidate the
orphaned id, then drop its dyn state and its weak reference. -/
def gcStep (t : RawCache) (bid : BuilderId) : RawCache :=
  let t1 := invalidate_any t bid
  { t1 with
      dyn_states := eraseKey t1.dyn_states bid,
      known_builders := eraseKey t1.known_builders bid }

/-- `RawCache::garbage_collection` (internal.rs lines 630-642): collect the
ids of `known_builders` whose weak reference no longer upgrades, then
reclaim each. -/
def garbage_collection (alive : BuilderId → Bool) (s : RawCache) : RawCache :=
  let unreachable :=
    (s.known_builders.filter
      (fun kv => (upgrade_from_weak alive kv.2).isNone)).map (fun kv => kv.1)
  unreachable.foldl gcStep s

/-- `RawCache::number_of_known_builders` (internal.rs lines 674-676). -/
def number_of_known_builders (s : RawCache) : Nat :=
  s.known_builders.length

/-! ## Association-list lemmas -/

theorem find?_insertRep_self {V : Type} (m : List (BuilderId × V)) (k : BuilderId)
    (v : V) : find? (insertRep m k v) k = some v := by
  induction m with
  | nil => simp [insertRep, find?]
  | cons kv rest ih =>
      obtain ⟨k0, v0⟩ := kv
      by_cases h : k0 = k
      · simp [insertRep, h, find?]
      · simp [insertRep, h, find?, ih]

theorem find?_insertRep_ne {V : Type} (m : List (BuilderId × V)) (k i : BuilderId)
    (v : V) (h : i ≠ k) : find? (insertRep m k v) i = find? m i := by
  have hki : ¬ k = i := fun hh => h hh.symm
  induction m with
  | nil => simp [insertRep, find?, hki]
  | cons kv rest ih =>
      obtain ⟨k0, v0⟩ := kv
      by_cases h0 : k0 = k
      · subst h0
        simp [insertRep, find?, hki]
      · simp only [insertRep, if_neg h0, find?]
        by_cases h1 : k0 = i
        · simp [h1]
        · simp [h1, ih]

theorem find?_eraseKey_self {V : Type} (m : List (BuilderId × V))
    (k : BuilderId) : find? (eraseKey m k) k = none := by
  induction m with
  | nil => simp [eraseKey, find?]
  | cons kv rest ih =>
      obtain ⟨k0, v0⟩ := kv
      by_cases h : k0 = k
      · simpa [eraseKey, List.filter_cons, h] using ih
      · simpa [eraseKey, List.filter_cons, find?, h] using ih

theorem find?_eraseKey_ne {V : Type} (m : List (BuilderId × V))
    (k i : BuilderId) (h : i ≠ k) : find? (eraseKey m k) i = find? m i := by
  induction m with
  | nil => simp [eraseKey, find?]
  | cons kv rest ih =>
      obtain ⟨k0, v0⟩ := kv
      by_cases h0 : k0 = k
      · subst h0
        have hki : ¬ k0 = i := fun hh => h (hh.symm)
        simpa [eraseKey, List.filter_cons, find?, hki] using ih
      · by_cases h1 : k0 = i
        · simp [eraseKey, List.filter_cons, find?, h0, h1, h]
        · simpa [eraseKey, List.filter_cons, find?, h0, h1] using ih

theorem find?_eraseKey {V : Type} (m : List (BuilderId × V))
    (k i : BuilderId) :
    find? (eraseKey m k) i = if i = k then none else find? m i := by
  by_cases h : i = k
  · simp [h, find?_eraseKey_self]
  · simp [h, find?_eraseKey_ne m k i h]

theorem eraseKey_length_le {V : Type} (m : List (BuilderId × V))
    (k : BuilderId) : (eraseKey m k).length ≤ m.length :=
  List.length_filter_le _ _

theorem find?_mem {V : Type} {m : List (BuilderId × V)} {k : BuilderId}
    {v : V} (h : find? m k = some v) : (k, v) ∈ m := by
  induction m with
  | nil => simp [find?] at h
  | cons kv rest ih =>
      obtain ⟨k0, v0⟩ := kv
      by_cases h0 : k0 = k
      · subst h0
        have hv : v0 = v := by simpa [find?] using h
        subst hv
        exact List.mem_cons_self _ _
      · simp only [find?, if_neg h0] at h
        exact List.mem_cons_of_mem _ (ih h)

theorem find?_eq_none_of_not_mem_keys {V : Type} {m : List (BuilderId × V)}
    {k : BuilderId} (h : k ∉ m.map Prod.fst) : find? m k = none := by
  induction m with
  | nil => simp [find?]
  | cons kv rest ih =>
      obtain ⟨k0, v0⟩ := kv
      simp only [List.map_cons, List.mem_cons] at h
      push_neg at h
      rw [find?, if_neg (Ne.symm h.1)]
      exact ih h.2

theorem mem_keys_insertRep {V : Type} (m : List (BuilderId × V))
    (k : BuilderId) (v : V) (x : BuilderId) :
    x ∈ (insertRep m k v).map Prod.fst ↔ x ∈ m.map Prod.fst ∨ x = k := by
  induction m with
  | nil => simp [insertRep]
  | cons kv rest ih =>
      obtain ⟨k0, v0⟩ := kv
      by_cases h0 : k0 = k
      · subst h0
        simp only [insertRep]
        rw [if_pos trivial]
        simp only [List.map_cons, List.mem_cons]
        tauto
      · simp only [insertRep, if_neg h0, List.map_cons, List.mem_cons, ih]
        tauto

/-- The keys of a table, each at most once. -/
def NodupKeys {V : Type} (m : List (BuilderId × V)) : Prop :=
  (m.map Prod.fst).Nodup

theorem nodupKeys_nil {V : Type} : NodupKeys ([] : List (BuilderId × V)) := by
  simp [NodupKeys]

theorem nodupKeys_insertRep {V : Type} {m : List (BuilderId × V)}
    (h : NodupKeys m) (k : BuilderId) (v : V) :
    NodupKeys (insertRep m k v) := by
  induction m with
  | nil => simp [insertRep, NodupKeys]
  | cons kv rest ih =>
      obtain ⟨k0, v0⟩ := kv
      rw [NodupKeys, List.map_cons, List.nodup_cons] at h
      by_cases h0 : k0 = k
      · subst h0
        rw [NodupKeys]
        simp only [insertRep]
        rw [if_pos trivial]
        simp only [List.map_cons, List.nodup_cons]
        exact h
      · rw [NodupKeys]
        simp only [insertRep, if_neg h0, List.map_cons, List.nodup_cons]
        refine ⟨?_, ih h.2⟩
        intro hmem
        rcases (mem_keys_insertRep rest k v k0).1 hmem with hk | hk
        · exact h.1 hk
        · exact h0 hk

theorem nodupKeys_eraseKey {V : Type} {m : List (BuilderId × V)}
    (h : NodupKeys m) (k : BuilderId) : NodupKeys (eraseKey m k) := by
  have hs : ((eraseKey m k).map Prod.fst).Sublist (m.map Prod.fst) :=
    List.Sublist.map _ (List.filter_sublist m)
  exact hs.nodup h

/-! ## Reachability along recorded dependent edges

`DepReach dep p x` says that `x` is `p` itself or a transitive dependent of
`p` according to the reverse edges recorded in `dep`: it is the set of
builders that the cascade `invalidate_any p` is meant to reach. -/

inductive DepReach (dep : List (BuilderId × List BuilderId)) :
    BuilderId → BuilderId → Prop
  | refl (p : BuilderId) : DepReach dep p p
  | step {p u x : BuilderId} (hmem : u ∈ findSet dep p)
      (h : DepReach dep u x) : DepReach dep p x

theorem DepReach.trans {dep : List (BuilderId × List BuilderId)}
    {a b c : BuilderId} (h1 : DepReach dep a b) (h2 : DepReach dep b c) :
    DepReach dep a c := by
  induction h1 with
  | refl _ => exact h2
  | step hmem _ ih => exact .step hmem (ih h2)

theorem findSet_isSome_of_mem {dep : List (BuilderId × List BuilderId)}
    {p u : BuilderId} (h : u ∈ findSet dep p) : (find? dep p).isSome := by
  unfold findSet at h
  cases hf : find? dep p with
  | none => rw [hf] at h; simp at h
  | some _ => simp

theorem findSet_eraseKey_ne (dep : List (BuilderId × List BuilderId))
    (b p : BuilderId) (h : p ≠ b) :
    findSet (eraseKey dep b) p = findSet dep p := by
  unfold findSet
  rw [find?_eraseKey_ne _ _ _ h]

theorem DepReach.mono_reach {d d' : List (BuilderId × List BuilderId)}
    {a x : BuilderId} (hs : ∀ q, findSet d' q ⊆ findSet d q)
    (h : DepReach d' a x) : DepReach d a x := by
  induction h with
  | refl p => exact .refl p
  | step hmem _ ih => exact .step (hs _ hmem) ih

/-- A rank function witnessing that the recorded dependent edges point
strictly upwards: dependents have strictly larger rank than what they
resolved.  This is the state-level shadow of the crate's requirement that
the dependency graph is acyclic. -/
def Ranked (dep : List (BuilderId × List BuilderId))
    (rank : BuilderId → Nat) : Prop :=
  ∀ p u, u ∈ findSet dep p → rank p < rank u

theorem Ranked.rank_le_of_reach {dep : List (BuilderId × List BuilderId)}
    {rank : BuilderId → Nat} (hr : Ranked dep rank) {a x : BuilderId}
    (h : DepReach dep a x) : rank a ≤ rank x := by
  induction h with
  | refl _ => exact le_refl _
  | step hmem _ ih => exact le_trans (le_of_lt (hr _ _ hmem)) ih

theorem Ranked.not_reach_back {dep : List (BuilderId × List BuilderId)}
    {rank : BuilderId → Nat} (hr : Ranked dep rank) {b u : BuilderId}
    (hmem : u ∈ findSet dep b) : ¬ DepReach dep u b := by
  intro h
  exact absurd (hr _ _ hmem) (not_lt.2 (hr.rank_le_of_reach h))

theorem Ranked.mono_rank {d d' : List (BuilderId × List BuilderId)}
    {rank : BuilderId → Nat} (hr : Ranked d rank)
    (hs : ∀ q, findSet d' q ⊆ findSet d q) : Ranked d' rank :=
  fun p u hmem => hr p u (hs p hmem)

/-- A cascade that must not visit `b` keeps all its paths when the entry of
`b` is removed from the graph. -/
theorem DepReach.avoid {dep : List (BuilderId × List BuilderId)}
    {b u x : BuilderId} (h : DepReach dep u x) :
    ¬ DepReach dep u b → DepReach (eraseKey dep b) u x := by
  induction h with
  | refl p => exact fun _ => .refl p
  | step hmem h2 ih =>
      intro hnot
      have hub : ¬ DepReach dep _ b := fun hr => hnot (.step hmem hr)
      have hpb : _ ≠ b := fun he => hnot (he ▸ DepReach.refl _)
      refine .step ?_ (ih hub)
      rw [findSet_eraseKey_ne dep b _ hpb]
      exact hmem

/-- A path either survives in a pointwise-smaller graph, or it crosses a
node whose entry the smaller graph has dropped (that node still reaches the
path's target in the original graph). -/
theorem DepReach.break_or {d d' : List (BuilderId × List BuilderId)}
    {u x : BuilderId}
    (hsub : ∀ q, find? d' q = find? d q ∨ find? d' q = none)
    (h : DepReach d u x) :
    DepReach d' u x ∨
      ∃ w, find? d' w = none ∧ (find? d w).isSome ∧ DepReach d w x := by
  induction h with
  | refl p => exact Or.inl (.refl p)
  | step hmem h2 ih =>
      rcases ih with ih | ⟨w, hw1, hw2, hw3⟩
      · rcases hsub _ with he | he
        · refine Or.inl (.step ?_ ih)
          unfold findSet
          rw [he]
          exact hmem
        · exact Or.inr ⟨_, he, findSet_isSome_of_mem hmem, .step hmem h2⟩
      · exact Or.inr ⟨w, hw1, hw2, hw3⟩

theorem findSet_sub_of_pointwise {d d' : List (BuilderId × List BuilderId)}
    (hsub : ∀ q, find? d' q = find? d q ∨ find? d' q = none) (q : BuilderId) :
    findSet d' q ⊆ findSet d q := by
  intro x hx
  rcases hsub q with he | he
  · unfold findSet at hx ⊢
    rw [he] at hx
    exact hx
  · unfold findSet at hx
    rw [he] at hx
    simp at hx

theorem eraseKey_length_lt {V : Type} {m : List (BuilderId × V)}
    {k : BuilderId} {v : V} (h : find? m k = some v) :
    (eraseKey m k).length < m.length := by
  induction m with
  | nil => simp [find?] at h
  | cons kv rest ih =>
      obtain ⟨k0, v0⟩ := kv
      by_cases h0 : k0 = k
      · subst h0
        have he : (eraseKey ((k0, v0) :: rest) k0).length =
            (eraseKey rest k0).length := by
          simp [eraseKey, List.filter_cons]
        rw [he]
        exact Nat.lt_succ_of_le (eraseKey_length_le rest k0)
      · simp only [find?, if_neg h0] at h
        have he : (eraseKey ((k0, v0) :: rest) k).length =
            (eraseKey rest k).length + 1 := by
          simp [eraseKey, List.filter_cons, h0]
        rw [he]
        simpa using Nat.succ_lt_succ (ih h)

/-! ## What an invalidation cascade can do to the state

`InvErase s t` says that `t` is `s` with some `artifacts` and `dependents`
entries erased — the dyn states, the weak references and the ghost field are
untouched.  Every state produced by `invalidate_any` (at any fuel, including
the folds inside it) is in this relation to its input. -/

def InvErase (s t : RawCache) : Prop :=
  t.dyn_states = s.dyn_states ∧
  t.known_builders = s.known_builders ∧
  t.built_with = s.built_with ∧
  (∀ x, find? t.artifacts x = find? s.artifacts x ∨
    find? t.artifacts x = none) ∧
  (∀ x, find? t.dependents x = find? s.dependents x ∨
    find? t.dependents x = none) ∧
  t.dependents.length ≤ s.dependents.length

theorem invErase_refl (s : RawCache) : InvErase s s :=
  ⟨rfl, rfl, rfl, fun _ => Or.inl rfl, fun _ => Or.inl rfl, le_refl _⟩

theorem invErase_trans {s t u : RawCache} (h1 : InvErase s t)
    (h2 : InvErase t u) : InvErase s u := by
  obtain ⟨d1, k1, b1, a1, p1, l1⟩ := h1
  obtain ⟨d2, k2, b2, a2, p2, l2⟩ := h2
  refine ⟨d2.trans d1, k2.trans k1, b2.trans b1, ?_, ?_, l2.trans l1⟩
  · intro x
    rcases a2 x with he | he
    · rw [he]; exact a1 x
    · exact Or.inr he
  · intro x
    rcases p2 x with he | he
    · rw [he]; exact p1 x
    · exact Or.inr he

theorem invErase_foldl {g : RawCache → BuilderId → RawCache}
    (hg : ∀ s b, InvErase s (g s b)) :
    ∀ (l : List BuilderId) (s : RawCache), InvErase s (List.foldl g s l) := by
  intro l
  induction l with
  | nil => intro s; exact invErase_refl s
  | cons u rest ih =>
      intro s
      exact invErase_trans (hg s u) (ih (g s u))

theorem invAnyFuel_invErase :
    ∀ (f : Nat) (s : RawCache) (b : BuilderId),
      InvErase s (invalidateAnyFuel f s b) := by
  intro f
  induction f with
  | zero => intro s b; exact invErase_refl s
  | succ f ih =>
      intro s b
      show InvErase s (invAnyStep (invalidateAnyFuel f) s b)
      unfold invAnyStep
      cases hdep : find? s.dependents b with
      | none =>
          refine ⟨rfl, rfl, rfl, ?_, fun _ => Or.inl rfl, le_refl _⟩
          intro x
          rw [find?_eraseKey]
          by_cases hx : x = b
          · simp [hx]
          · simp [hx]
      | some set =>
          have h1 : InvErase s { s with dependents := eraseKey s.dependents b } := by
            refine ⟨rfl, rfl, rfl, fun _ => Or.inl rfl, ?_, eraseKey_length_le _ _⟩
            intro x
            rw [find?_eraseKey]
            by_cases hx : x = b
            · simp [hx]
            · simp [hx]
          have h2 := invErase_foldl ih set { s with dependents := eraseKey s.dependents b }
          have h3 := invErase_trans h1 h2
          refine invErase_trans h3 ?_
          refine ⟨rfl, rfl, rfl, ?_, fun _ => Or.inl rfl, le_refl _⟩
          intro x
          rw [find?_eraseKey]
          by_cases hx : x = b
          · simp [hx]
          · simp [hx]

theorem invErase_art_none {s t : RawCache} (h : InvErase s t) {x : BuilderId}
    (hx : find? s.artifacts x = none) : find? t.artifacts x = none := by
  rcases h.2.2.2.1 x with he | he
  · rw [he, hx]
  · exact he

/-- Whatever fuel, `invalidate_any` with at least one unit of fuel removes
the artifact of its target. -/
theorem invAnyFuel_art_self (f : Nat) (s : RawCache) (b : BuilderId) :
    find? ((invalidateAnyFuel (f + 1) s b)).artifacts b = none := by
  show find? ((invAnyStep (invalidateAnyFuel f) s b)).artifacts b = none
  unfold invAnyStep
  cases hdep : find? s.dependents b with
  | none => exact find?_eraseKey_self _ _
  | some set => exact find?_eraseKey_self _ _

theorem findSet_eq_of_find? {dep : List (BuilderId × List BuilderId)}
    {b : BuilderId} {set : List BuilderId} (h : find? dep b = some set) :
    findSet dep b = set := by
  unfold findSet
  rw [h]
  rfl

theorem findSet_eraseKey_sub (dep : List (BuilderId × List BuilderId))
    (b q : BuilderId) : findSet (eraseKey dep b) q ⊆ findSet dep q := by
  by_cases hq : q = b
  · subst hq
    unfold findSet
    rw [find?_eraseKey_self]
    intro x hx
    simp at hx
  · rw [findSet_eraseKey_ne dep b q hq]
    exact fun x hx => hx

/-- Generic fold lifting of the "only reachable entries change" property. -/
theorem foldl_changed {g : RawCache → BuilderId → RawCache}
    (hg_inv : ∀ s b, InvErase s (g s b))
    (hg_art : ∀ s b x, find? (g s b).artifacts x ≠ find? s.artifacts x →
      DepReach s.dependents b x)
    (hg_dep : ∀ s b x, find? (g s b).dependents x ≠ find? s.dependents x →
      DepReach s.dependents b x) :
    ∀ (l : List BuilderId) (s : RawCache) (x : BuilderId),
      (find? ((List.foldl g s l)).artifacts x ≠ find? s.artifacts x →
        ∃ u ∈ l, DepReach s.dependents u x) ∧
      (find? ((List.foldl g s l)).dependents x ≠ find? s.dependents x →
        ∃ u ∈ l, DepReach s.dependents u x) := by
  intro l
  induction l with
  | nil =>
      intro s x
      exact ⟨fun h => absurd rfl h, fun h => absurd rfl h⟩
  | cons u0 rest ih =>
      intro s x
      simp only [List.foldl_cons]
      have hmono : ∀ q, findSet ((g s u0)).dependents q ⊆ findSet s.dependents q :=
        findSet_sub_of_pointwise (hg_inv s u0).2.2.2.2.1
      constructor
      · intro hchg
        by_cases he : find? ((g s u0)).artifacts x = find? s.artifacts x
        · rw [← he] at hchg
          rcases (ih (g s u0) x).1 hchg with ⟨u, hu, hru⟩
          exact ⟨u, List.mem_cons_of_mem _ hu, hru.mono_reach hmono⟩
        · exact ⟨u0, List.mem_cons_self _ _, hg_art s u0 x he⟩
      · intro hchg
        by_cases he : find? ((g s u0)).dependents x = find? s.dependents x
        · rw [← he] at hchg
          rcases (ih (g s u0) x).2 hchg with ⟨u, hu, hru⟩
          exact ⟨u, List.mem_cons_of_mem _ hu, hru.mono_reach hmono⟩
        · exact ⟨u0, List.mem_cons_self _ _, hg_dep s u0 x he⟩

/-- Confinement: `invalidate_any b` changes the `artifacts` or `dependents`
entry of `x` only when `x` is reachable from `b` along the recorded
dependent edges. -/
theorem invAnyFuel_changed :
    ∀ (f : Nat) (s : RawCache) (b x : BuilderId),
      (find? ((invalidateAnyFuel f s b)).artifacts x ≠ find? s.artifacts x →
        DepReach s.dependents b x) ∧
      (find? ((invalidateAnyFuel f s b)).dependents x ≠ find? s.dependents x →
        DepReach s.dependents b x) := by
  intro f
  induction f with
  | zero =>
      intro s b x
      exact ⟨fun h => absurd rfl h, fun h => absurd rfl h⟩
  | succ f ih =>
      intro s b x
      have hstep :
          invalidateAnyFuel (f + 1) s b = invAnyStep (invalidateAnyFuel f) s b := rfl
      rw [hstep]
      unfold invAnyStep
      cases hdep : find? s.dependents b with
      | none =>
          constructor
          · intro hchg
            simp only at hchg
            rw [find?_eraseKey] at hchg
            by_cases hx : x = b
            · subst hx
              exact DepReach.refl x
            · rw [if_neg hx] at hchg
              exact absurd rfl hchg
          · intro hchg
            exact absurd rfl hchg
      | some set =>
          by_cases hx : x = b
          · subst hx
            exact ⟨fun _ => DepReach.refl x, fun _ => DepReach.refl x⟩
          have hfold := foldl_changed (fun s b => invAnyFuel_invErase f s b)
            (fun s b x => (ih s b x).1) (fun s b x => (ih s b x).2) set
            { s with dependents := eraseKey s.dependents b } x
          have hmono : ∀ q,
              findSet (eraseKey s.dependents b) q ⊆ findSet s.dependents q :=
            findSet_eraseKey_sub s.dependents b
          have hset : findSet s.dependents b = set := findSet_eq_of_find? hdep
          constructor
          · intro hchg
            simp only at hchg
            rw [find?_eraseKey, if_neg hx] at hchg
            have hchg1 : find? ((List.foldl (invalidateAnyFuel f)
                { s with dependents := eraseKey s.dependents b } set)).artifacts x ≠
                find? ({ s with dependents := eraseKey s.dependents b }).artifacts x :=
              hchg
            rcases hfold.1 hchg1 with ⟨u, hu, hru⟩
            refine DepReach.step ?_ (hru.mono_reach hmono)
            rw [hset]
            exact hu
          · intro hchg
            simp only at hchg
            by_cases hd : find? ((List.foldl (invalidateAnyFuel f)
                { s with dependents := eraseKey s.dependents b } set)).dependents x =
                find? ({ s with dependents := eraseKey s.dependents b }).dependents x
            · rw [hd] at hchg
              simp only at hchg
              rw [find?_eraseKey, if_neg hx] at hchg
              exact absurd rfl hchg
            · rcases hfold.2 hd with ⟨u, hu, hru⟩
              refine DepReach.step ?_ (hru.mono_reach hmono)
              rw [hset]
              exact hu

/-- Completeness of the cascade: with enough fuel, on a rank-ordered edge
set, `invalidate_any b` removes the artifact of everything reachable
from `b`. -/
theorem invAnyFuel_kills :
    ∀ (f : Nat) (s : RawCache) (b : BuilderId) (rank : BuilderId → Nat),
      Ranked s.dependents rank → s.dependents.length < f →
      ∀ x, DepReach s.dependents b x →
        find? ((invalidateAnyFuel f s b)).artifacts x = none := by
  intro f
  induction f with
  | zero =>
      intro s b rank hr hlen
      exact absurd hlen (Nat.not_lt_zero _)
  | succ f ih =>
      have fold_kills : ∀ (l : List BuilderId) (s : RawCache)
          (rank : BuilderId → Nat),
          Ranked s.dependents rank → s.dependents.length < f →
          ∀ u ∈ l, ∀ x, DepReach s.dependents u x →
          find? ((List.foldl (invalidateAnyFuel f) s l)).artifacts x = none := by
        intro l
        induction l with
        | nil =>
            intro s rank hr hlen u hu
            simp at hu
        | cons u0 rest ihl =>
            intro s rank hr hlen u hu x hx
            simp only [List.foldl_cons]
            have hinv := invAnyFuel_invErase f s u0
            have hfold_inv := invErase_foldl
              (fun s b => invAnyFuel_invErase f s b) rest (invalidateAnyFuel f s u0)
            have hr' : Ranked ((invalidateAnyFuel f s u0)).dependents rank :=
              hr.mono_rank (findSet_sub_of_pointwise hinv.2.2.2.2.1)
            have hlen' : ((invalidateAnyFuel f s u0)).dependents.length < f :=
              lt_of_le_of_lt hinv.2.2.2.2.2 hlen
            rcases List.mem_cons.1 hu with rfl | hu
            · exact invErase_art_none hfold_inv (ih s u rank hr hlen x hx)
            · rcases DepReach.break_or hinv.2.2.2.2.1 hx with hx' | ⟨w, hw1, hw2, hw3⟩
              · exact ihl (invalidateAnyFuel f s u0) rank hr' hlen' u hu x hx'
              · have hchg : find? ((invalidateAnyFuel f s u0)).dependents w ≠
                    find? s.dependents w := by
                  rw [hw1]
                  intro he
                  rw [← he] at hw2
                  simp at hw2
                have hrw : DepReach s.dependents u0 w :=
                  (invAnyFuel_changed f s u0 w).2 hchg
                exact invErase_art_none hfold_inv
                  (ih s u0 rank hr hlen x (hrw.trans hw3))
      intro s b rank hr hlen x hx
      have hstep :
          invalidateAnyFuel (f + 1) s b = invAnyStep (invalidateAnyFuel f) s b := rfl
      rw [hstep]
      unfold invAnyStep
      cases hdep : find? s.dependents b with
      | none =>
          cases hx with
          | refl => exact find?_eraseKey_self _ _
          | step hmem h2 =>
              unfold findSet at hmem
              rw [hdep] at hmem
              simp at hmem
      | some set =>
          by_cases hxb : x = b
          · subst hxb
            exact find?_eraseKey_self _ _
          cases hx with
          | refl => exact absurd rfl hxb
          | step hmem h2 =>
              rename_i u
              have hnub : ¬ DepReach s.dependents u b := hr.not_reach_back hmem
              have h2' : DepReach (eraseKey s.dependents b) u x := h2.avoid hnub
              have hr1 : Ranked (eraseKey s.dependents b) rank :=
                hr.mono_rank (findSet_eraseKey_sub s.dependents b)
              have hlen1 : (eraseKey s.dependents b).length < f := by
                have := eraseKey_length_lt hdep
                omega
              have humem : u ∈ set := by
                unfold findSet at hmem
                rw [hdep] at hmem
                exact hmem
              have hset := fold_kills set
                { s with dependents := eraseKey s.dependents b } rank hr1 hlen1
                u humem x h2'
              simp only
              rw [find?_eraseKey_ne _ _ _ hxb]
              exact hset

/-- Top-level fold version of cascade completeness. -/
theorem foldl_invAny_kills (f : Nat) :
    ∀ (l : List BuilderId) (s : RawCache) (rank : BuilderId → Nat),
      Ranked s.dependents rank → s.dependents.length < f →
      ∀ u ∈ l, ∀ x, DepReach s.dependents u x →
      find? ((List.foldl (invalidateAnyFuel f) s l)).artifacts x = none := by
  intro l
  induction l with
  | nil =>
      intro s rank hr hlen u hu
      simp at hu
  | cons u0 rest ihl =>
      intro s rank hr hlen u hu x hx
      simp only [List.foldl_cons]
      have hinv := invAnyFuel_invErase f s u0
      have hfold_inv := invErase_foldl
        (fun s b => invAnyFuel_invErase f s b) rest (invalidateAnyFuel f s u0)
      have hr' : Ranked ((invalidateAnyFuel f s u0)).dependents rank :=
        hr.mono_rank (findSet_sub_of_pointwise hinv.2.2.2.2.1)
      have hlen' : ((invalidateAnyFuel f s u0)).dependents.length < f :=
        lt_of_le_of_lt hinv.2.2.2.2.2 hlen
      rcases List.mem_cons.1 hu with rfl | hu
      · exact invErase_art_none hfold_inv (invAnyFuel_kills f s u rank hr hlen x hx)
      · rcases DepReach.break_or hinv.2.2.2.2.1 hx with hx' | ⟨w, hw1, hw2, hw3⟩
        · exact ihl (invalidateAnyFuel f s u0) rank hr' hlen' u hu x hx'
        · have hchg : find? ((invalidateAnyFuel f s u0)).dependents w ≠
              find? s.dependents w := by
            rw [hw1]
            intro he
            rw [← he] at hw2
            simp at hw2
          have hrw : DepReach s.dependents u0 w :=
            (invAnyFuel_changed f s u0 w).2 hchg
          exact invErase_art_none hfold_inv
            (invAnyFuel_kills f s u0 rank hr hlen x (hrw.trans hw3))

/-! ## The public `invalidate`, `invalidate_dependents` and their facts -/

theorem cleanup_art (s : RawCache) :
    (cleanup_unused_weak_refs s).artifacts = s.artifacts := rfl

theorem cleanup_dyn (s : RawCache) :
    (cleanup_unused_weak_refs s).dyn_states = s.dyn_states := rfl

theorem cleanup_dep (s : RawCache) :
    (cleanup_unused_weak_refs s).dependents = s.dependents := rfl

theorem cleanup_ghost (s : RawCache) :
    (cleanup_unused_weak_refs s).built_with = s.built_with := rfl

theorem invalidate_any_invErase (s : RawCache) (b : BuilderId) :
    InvErase s (invalidate_any s b) :=
  invAnyFuel_invErase _ s b

/-- Cascade completeness for `invalidate_any` at its built-in fuel. -/
theorem invalidate_any_kills (s : RawCache) (b : BuilderId)
    (rank : BuilderId → Nat) (hr : Ranked s.dependents rank) (x : BuilderId)
    (hx : DepReach s.dependents b x) :
    find? ((invalidate_any s b)).artifacts x = none :=
  invAnyFuel_kills _ s b rank hr (Nat.lt_succ_self _) x hx

/-- Cascade confinement for `invalidate_any` at its built-in fuel. -/
theorem invalidate_any_confined (s : RawCache) (b q : BuilderId)
    (hq : ¬ DepReach s.dependents b q) :
    find? ((invalidate_any s b)).artifacts q = find? s.artifacts q := by
  by_contra hne
  exact hq ((invAnyFuel_changed _ s b q).1 hne)

theorem invalidate_art (s : RawCache) (p : BuilderId) :
    (invalidate s p).artifacts = (invalidate_any s p).artifacts := rfl

theorem invalidate_dyn (s : RawCache) (p : BuilderId) :
    (invalidate s p).dyn_states = s.dyn_states := by
  rw [show (invalidate s p).dyn_states = (invalidate_any s p).dyn_states from rfl]
  exact (invalidate_any_invErase s p).1

theorem invalidate_ghost (s : RawCache) (p : BuilderId) :
    (invalidate s p).built_with = s.built_with := by
  rw [show (invalidate s p).built_with = (invalidate_any s p).built_with from rfl]
  exact (invalidate_any_invErase s p).2.2.1

/-- `InvErase` for `invalidate_dependents`. -/
theorem invDeps_invErase (s : RawCache) (p : BuilderId) :
    InvErase s (invalidate_dependents s p) := by
  unfold invalidate_dependents
  cases hdep : find? s.dependents p with
  | none => exact invErase_refl s
  | some set =>
      have h1 : InvErase s { s with dependents := eraseKey s.dependents p } := by
        refine ⟨rfl, rfl, rfl, fun _ => Or.inl rfl, ?_, eraseKey_length_le _ _⟩
        intro x
        rw [find?_eraseKey]
        by_cases hx : x = p
        · simp [hx]
        · simp [hx]
      exact invErase_trans h1
        (invErase_foldl (fun s b => invAnyFuel_invErase _ s b) set _)

/-- `invalidate_dependents` kills the artifact of every recorded dependent
of `p` and of everything those reach. -/
theorem invDeps_kills (s : RawCache) (p : BuilderId) (rank : BuilderId → Nat)
    (hr : Ranked s.dependents rank) (u x : BuilderId)
    (hu : u ∈ findSet s.dependents p) (hx : DepReach s.dependents u x) :
    find? ((invalidate_dependents s p)).artifacts x = none := by
  unfold invalidate_dependents
  cases hdep : find? s.dependents p with
  | none =>
      unfold findSet at hu
      rw [hdep] at hu
      simp at hu
  | some set =>
      have humem : u ∈ set := by
        unfold findSet at hu
        rw [hdep] at hu
        exact hu
      have hnup : ¬ DepReach s.dependents u p := hr.not_reach_back hu
      have hx' : DepReach (eraseKey s.dependents p) u x := hx.avoid hnup
      have hr1 : Ranked (eraseKey s.dependents p) rank :=
        hr.mono_rank (findSet_eraseKey_sub s.dependents p)
      have hlen1 : (eraseKey s.dependents p).length < s.dependents.length :=
        eraseKey_length_lt hdep
      exact foldl_invAny_kills s.dependents.length set
        { s with dependents := eraseKey s.dependents p } rank hr1 hlen1
        u humem x hx'

/-- `invalidate_dependents` leaves the artifact of `p` itself alone (on a
rank-ordered edge set). -/
theorem invDeps_art_self (s : RawCache) (p : BuilderId)
    (rank : BuilderId → Nat) (hr : Ranked s.dependents rank) :
    find? ((invalidate_dependents s p)).artifacts p = find? s.artifacts p := by
  unfold invalidate_dependents
  cases hdep : find? s.dependents p with
  | none => rfl
  | some set =>
      by_contra hne
      have hchg := (foldl_changed (fun s b => invAnyFuel_invErase _ s b)
        (fun s b x => (invAnyFuel_changed _ s b x).1)
        (fun s b x => (invAnyFuel_changed _ s b x).2) set
        { s with dependents := eraseKey s.dependents p } p).1 hne
      rcases hchg with ⟨u, hu, hru⟩
      have hru' : DepReach s.dependents u p :=
        hru.mono_reach (findSet_eraseKey_sub s.dependents p)
      have humem : u ∈ findSet s.dependents p := by
        unfold findSet
        rw [hdep]
        exact hu
      exact hr.not_reach_back humem hru'

/-! ## Invariants and the build-side lemmas -/

/-- The world's dependency relation is acyclic, witnessed by a rank that
strictly decreases from a builder to everything it can resolve.  This is the
crate's requirement that builders form a DAG. -/
def WOrder (W : World) (rank : BuilderId → Nat) : Prop :=
  ∀ p st d, d ∈ (W p).deps st → rank d < rank p

/-- Stored cans always carry the type tag of the builder owning their key
(§3 invariants 4 and 5 of the spec). -/
def TagInv (W : World) (s : RawCache) : Prop :=
  (∀ q c, find? s.artifacts q = some c → c.tag = (W q).artTag) ∧
  (∀ q d, find? s.dyn_states q = some d → d.tag = (W q).dynTag)

/-- Every builder with a cached artifact is recorded as a dependent of each
promise its artifact-producing build resolved. -/
def EdgeInvariant (s : RawCache) : Prop :=
  ∀ u l c, find? s.built_with u = some l → find? s.artifacts u = some c →
    ∀ p ∈ l, u ∈ findSet s.dependents p

/-- What the build path can do to the bookkeeping: existing `known_builders`
and `dyn_states` entries are untouched, and recorded dependent edges only
grow. -/
def BuildGrow (s t : RawCache) : Prop :=
  (∀ q, (find? s.known_builders q).isSome →
    find? t.known_builders q = find? s.known_builders q) ∧
  (∀ q, (find? s.dyn_states q).isSome →
    find? t.dyn_states q = find? s.dyn_states q) ∧
  (∀ q x, x ∈ findSet s.dependents q → x ∈ findSet t.dependents q)

theorem buildGrow_refl (s : RawCache) : BuildGrow s s :=
  ⟨fun _ _ => rfl, fun _ _ => rfl, fun _ _ hx => hx⟩

theorem buildGrow_trans {s t u : RawCache} (h1 : BuildGrow s t)
    (h2 : BuildGrow t u) : BuildGrow s u := by
  refine ⟨fun q hq => ?_, fun q hq => ?_, fun q x hx => h2.2.2 q x (h1.2.2 q x hx)⟩
  · have he := h1.1 q hq
    rw [(h2.1 q (by rw [he]; exact hq)), he]
  · have he := h1.2.1 q hq
    rw [(h2.2.1 q (by rw [he]; exact hq)), he]

theorem track_art (s : RawCache) (u d : BuilderId) :
    (track_dependency s u d).artifacts = s.artifacts := rfl

theorem track_dyn (s : RawCache) (u d : BuilderId) :
    (track_dependency s u d).dyn_states = s.dyn_states := rfl

theorem track_known (s : RawCache) (u d : BuilderId) :
    (track_dependency s u d).known_builders = s.known_builders := rfl

theorem track_ghost (s : RawCache) (u d : BuilderId) :
    (track_dependency s u d).built_with = s.built_with := rfl

theorem find?_insertRep {V : Type} (m : List (BuilderId × V)) (k : BuilderId)
    (v : V) (i : BuilderId) :
    find? (insertRep m k v) i = if i = k then some v else find? m i := by
  by_cases h : i = k
  · subst h
    rw [if_pos rfl, find?_insertRep_self]
  · rw [if_neg h, find?_insertRep_ne _ _ _ _ h]

theorem track_dep_find (s : RawCache) (u d q : BuilderId) :
    find? ((track_dependency s u d)).dependents q =
      if q = d then
        some (if u ∈ findSet s.dependents d then findSet s.dependents d
              else u :: findSet s.dependents d)
      else find? s.dependents q := by
  have hd : (track_dependency s u d).dependents =
      insertRep s.dependents d
        (if u ∈ findSet s.dependents d then findSet s.dependents d
         else u :: findSet s.dependents d) := rfl
  rw [hd, find?_insertRep]

theorem track_findSet (s : RawCache) (u d q : BuilderId) :
    findSet ((track_dependency s u d)).dependents q =
      if q = d then
        (if u ∈ findSet s.dependents d then findSet s.dependents d
         else u :: findSet s.dependents d)
      else findSet s.dependents q := by
  unfold findSet
  rw [track_dep_find]
  by_cases hq : q = d
  · rw [if_pos hq, if_pos hq]
    rfl
  · rw [if_neg hq, if_neg hq]

theorem track_findSet_grow (s : RawCache) (u d : BuilderId) (q x : BuilderId)
    (hx : x ∈ findSet s.dependents q) :
    x ∈ findSet ((track_dependency s u d)).dependents q := by
  rw [track_findSet]
  by_cases hq : q = d
  · subst hq
    rw [if_pos rfl]
    by_cases hu : u ∈ findSet s.dependents q
    · rw [if_pos hu]
      exact hx
    · rw [if_neg hu]
      exact List.mem_cons_of_mem _ hx
  · rw [if_neg hq]
    exact hx

theorem track_findSet_self (s : RawCache) (u d : BuilderId) :
    u ∈ findSet ((track_dependency s u d)).dependents d := by
  rw [track_findSet, if_pos rfl]
  by_cases hu : u ∈ findSet s.dependents d
  · rw [if_pos hu]
    exact hu
  · rw [if_neg hu]
    exact List.mem_cons_self _ _

theorem track_buildGrow (s : RawCache) (u d : BuilderId) :
    BuildGrow s (track_dependency s u d) :=
  ⟨fun _ _ => rfl, fun _ _ => rfl, fun q x hx => track_findSet_grow s u d q x hx⟩

theorem make_known_art (s : RawCache) (p : BuilderId) :
    (make_builder_known s p).artifacts = s.artifacts := by
  unfold make_builder_known
  cases find? s.known_builders p <;> rfl

theorem make_known_dyn (s : RawCache) (p : BuilderId) :
    (make_builder_known s p).dyn_states = s.dyn_states := by
  unfold make_builder_known
  cases find? s.known_builders p <;> rfl

theorem make_known_dep (s : RawCache) (p : BuilderId) :
    (make_builder_known s p).dependents = s.dependents := by
  unfold make_builder_known
  cases find? s.known_builders p <;> rfl

theorem make_known_ghost (s : RawCache) (p : BuilderId) :
    (make_builder_known s p).built_with = s.built_with := by
  unfold make_builder_known
  cases find? s.known_builders p <;> rfl

theorem make_known_isSome (s : RawCache) (p : BuilderId) :
    (find? ((make_builder_known s p)).known_builders p).isSome := by
  unfold make_builder_known
  cases hk : find? s.known_builders p with
  | some w => simp [hk]
  | none => simp [find?_insertRep_self]

theorem make_known_buildGrow (s : RawCache) (p : BuilderId) :
    BuildGrow s (make_builder_known s p) := by
  refine ⟨fun q hq => ?_, ?_, ?_⟩
  · unfold make_builder_known
    cases hk : find? s.known_builders p with
    | some w => rfl
    | none =>
        by_cases hqp : q = p
        · subst hqp
          rw [hk] at hq
          simp at hq
        · simpa using find?_insertRep_ne _ _ _ _ hqp
  · rw [make_known_dyn]
    exact fun _ _ => rfl
  · rw [make_known_dep]
    exact fun _ _ hx => hx

theorem ensure_art (W : World) (s : RawCache) (p : BuilderId) :
    ((ensure_dyn_state W s p)).2.artifacts = s.artifacts := by
  unfold ensure_dyn_state
  cases find? s.dyn_states p with
  | some d =>
      by_cases ht : d.tag = (W p).dynTag <;> simp [ht]
  | none => rfl

theorem ensure_known (W : World) (s : RawCache) (p : BuilderId) :
    ((ensure_dyn_state W s p)).2.known_builders = s.known_builders := by
  unfold ensure_dyn_state
  cases find? s.dyn_states p with
  | some d =>
      by_cases ht : d.tag = (W p).dynTag <;> simp [ht]
  | none => rfl

theorem ensure_dep (W : World) (s : RawCache) (p : BuilderId) :
    ((ensure_dyn_state W s p)).2.dependents = s.dependents := by
  unfold ensure_dyn_state
  cases find? s.dyn_states p with
  | some d =>
      by_cases ht : d.tag = (W p).dynTag <;> simp [ht]
  | none => rfl

theorem ensure_ghost (W : World) (s : RawCache) (p : BuilderId) :
    ((ensure_dyn_state W s p)).2.built_with = s.built_with := by
  unfold ensure_dyn_state
  cases find? s.dyn_states p with
  | some d =>
      by_cases ht : d.tag = (W p).dynTag <;> simp [ht]
  | none => rfl

theorem ensure_dyn_isSome (W : World) (s : RawCache) (p : BuilderId) :
    (find? ((ensure_dyn_state W s p)).2.dyn_states p).isSome := by
  unfold ensure_dyn_state
  cases hd : find? s.dyn_states p with
  | some d =>
      by_cases ht : d.tag = (W p).dynTag <;> simp [ht, hd]
  | none => simp [find?_insertRep_self]

theorem ensure_buildGrow (W : World) (s : RawCache) (p : BuilderId) :
    BuildGrow s ((ensure_dyn_state W s p)).2 := by
  refine ⟨?_, fun q hq => ?_, ?_⟩
  · rw [ensure_known]
    exact fun _ _ => rfl
  · unfold ensure_dyn_state
    cases hd : find? s.dyn_states p with
    | some d =>
        by_cases ht : d.tag = (W p).dynTag <;> simp [ht]
    | none =>
        by_cases hqp : q = p
        · subst hqp
          rw [hd] at hq
          simp at hq
        · simpa using find?_insertRep_ne _ _ _ _ hqp
  · rw [ensure_dep]
    exact fun _ _ hx => hx

theorem tagInv_of_eq {W : World} {s t : RawCache}
    (ha : t.artifacts = s.artifacts) (hd : t.dyn_states = s.dyn_states)
    (h : TagInv W s) : TagInv W t := by
  constructor
  · intro q c hc
    rw [ha] at hc
    exact h.1 q c hc
  · intro q d hdq
    rw [hd] at hdq
    exact h.2 q d hdq

theorem tagInv_insert_dyn {W : World} {s : RawCache} (h : TagInv W s)
    (p : BuilderId) (v : Val) :
    TagInv W
      { s with dyn_states := insertRep s.dyn_states p ⟨(W p).dynTag, v⟩ } := by
  constructor
  · exact h.1
  · intro q d hdq
    simp only at hdq
    rw [find?_insertRep] at hdq
    by_cases hq : q = p
    · rw [if_pos hq] at hdq
      cases hdq
      rw [hq]
    · rw [if_neg hq] at hdq
      exact h.2 q d hdq

theorem tagInv_insert_art {W : World} {s : RawCache} (h : TagInv W s)
    (p : BuilderId) (v : Val) :
    TagInv W
      { s with artifacts := insertRep s.artifacts p ⟨(W p).artTag, v⟩ } := by
  constructor
  · intro q c hc
    simp only at hc
    rw [find?_insertRep] at hc
    by_cases hq : q = p
    · rw [if_pos hq] at hc
      cases hc
      rw [hq]
    · rw [if_neg hq] at hc
      exact h.1 q c hc
  · exact h.2

theorem ensure_eq_of_some (W : World) (s : RawCache) (p : BuilderId)
    (d : DynCan) (hd : find? s.dyn_states p = some d)
    (ht : d.tag = (W p).dynTag) :
    ensure_dyn_state W s p = (.ok d.val, s) := by
  unfold ensure_dyn_state
  rw [hd]
  simp [ht]

theorem ensure_eq_of_none (W : World) (s : RawCache) (p : BuilderId)
    (hd : find? s.dyn_states p = none) :
    ensure_dyn_state W s p =
      (.ok (W p).initDyn,
        { s with dyn_states :=
            insertRep s.dyn_states p ⟨(W p).dynTag, (W p).initDyn⟩ }) := by
  unfold ensure_dyn_state
  rw [hd]

theorem ensure_tag {W : World} {s : RawCache} (h : TagInv W s)
    (p : BuilderId) :
    TagInv W ((ensure_dyn_state W s p)).2 ∧
      (ensure_dyn_state W s p).1 ≠ .abort := by
  cases hd : find? s.dyn_states p with
  | some d =>
      have ht : d.tag = (W p).dynTag := h.2 p d hd
      rw [ensure_eq_of_some W s p d hd ht]
      exact ⟨h, by simp⟩
  | none =>
      rw [ensure_eq_of_none W s p hd]
      exact ⟨tagInv_insert_dyn h p (W p).initDyn, by simp⟩

theorem lookupArt_miss {W : World} {s : RawCache} {p : BuilderId}
    (h : find? s.artifacts p = none) : lookupArt W s p = .miss := by
  unfold lookupArt
  rw [h]

theorem lookupArt_hit {W : World} {s : RawCache} {p : BuilderId} {c : ArtCan}
    (h : find? s.artifacts p = some c) (ht : c.tag = (W p).artTag) :
    lookupArt W s p = .hit c.val := by
  unfold lookupArt
  rw [h]
  simp [ht]

theorem lookupArt_no_bad {W : World} {s : RawCache} (h : TagInv W s)
    (p : BuilderId) : lookupArt W s p ≠ .bad := by
  cases hc : find? s.artifacts p with
  | none =>
      rw [lookupArt_miss hc]
      simp
  | some c =>
      rw [lookupArt_hit hc (h.1 p c hc)]
      simp

/-- Unfolding equation for `resolveSteps` on a non-empty dependency list. -/
theorem resolveSteps_cons (g : BuilderId → RawCache → Res Val × RawCache)
    (u d : BuilderId) (rest : List BuilderId) (s : RawCache) :
    resolveSteps g u (d :: rest) s =
      match g d (track_dependency s u d) with
      | (.ok v, s2) =>
          match resolveSteps g u rest s2 with
          | (.ok vs, s3) => (.ok (v :: vs), s3)
          | (r, s3) => (r.castFail, s3)
      | (r, s2) => (r.castFail, s2) := rfl

theorem resolveSteps_grow {g : BuilderId → RawCache → Res Val × RawCache}
    (hg : ∀ d t, BuildGrow t ((g d t)).2) :
    ∀ (l : List BuilderId) (u : BuilderId) (s : RawCache),
      BuildGrow s ((resolveSteps g u l s)).2 := by
  intro l
  induction l with
  | nil => intro u s; exact buildGrow_refl s
  | cons d rest ih =>
      intro u s
      rw [resolveSteps_cons]
      have h1 : BuildGrow s (track_dependency s u d) := track_buildGrow s u d
      rcases hgd : g d (track_dependency s u d) with ⟨r, s2⟩
      have h2 : BuildGrow (track_dependency s u d) s2 := by
        have := hg d (track_dependency s u d)
        rw [hgd] at this
        exact this
      cases r with
      | ok v =>
          rcases hrs : resolveSteps g u rest s2 with ⟨r3, s3⟩
          have h3 : BuildGrow s2 s3 := by
            have := ih u s2
            rw [hrs] at this
            exact this
          have hall := buildGrow_trans (buildGrow_trans h1 h2) h3
          cases r3 <;> simpa [hrs] using hall
      | err e => exact buildGrow_trans h1 h2
      | abort => exact buildGrow_trans h1 h2
      | fuel => exact buildGrow_trans h1 h2

theorem resolveSteps_nil (g : BuilderId → RawCache → Res Val × RawCache)
    (u : BuilderId) (s : RawCache) :
    resolveSteps g u [] s = (.ok [], s) := rfl

theorem resolveSteps_cons_ok {g : BuilderId → RawCache → Res Val × RawCache}
    {u d : BuilderId} {rest : List BuilderId} {s s2 : RawCache} {v : Val}
    (hgd : g d (track_dependency s u d) = (.ok v, s2)) :
    resolveSteps g u (d :: rest) s =
      match resolveSteps g u rest s2 with
      | (.ok vs, s3) => (.ok (v :: vs), s3)
      | (r, s3) => (r.castFail, s3) := by
  rw [resolveSteps_cons, hgd]

theorem resolveSteps_cons_ok_ok {g : BuilderId → RawCache → Res Val × RawCache}
    {u d : BuilderId} {rest : List BuilderId} {s s2 s3 : RawCache} {v : Val}
    {vs : List Val}
    (hgd : g d (track_dependency s u d) = (.ok v, s2))
    (hrs : resolveSteps g u rest s2 = (.ok vs, s3)) :
    resolveSteps g u (d :: rest) s = (.ok (v :: vs), s3) := by
  rw [resolveSteps_cons_ok hgd, hrs]

theorem resolveSteps_cons_ok_fail {g : BuilderId → RawCache → Res Val × RawCache}
    {u d : BuilderId} {rest : List BuilderId} {s s2 s3 : RawCache} {v : Val}
    {r : Res (List Val)}
    (hgd : g d (track_dependency s u d) = (.ok v, s2))
    (hrs : resolveSteps g u rest s2 = (r, s3)) (hr : ∀ vs, r ≠ .ok vs) :
    resolveSteps g u (d :: rest) s = (r.castFail, s3) := by
  rw [resolveSteps_cons_ok hgd, hrs]
  cases r with
  | ok vs => exact absurd rfl (hr vs)
  | err e => rfl
  | abort => rfl
  | fuel => rfl

theorem resolveSteps_cons_fail {g : BuilderId → RawCache → Res Val × RawCache}
    {u d : BuilderId} {rest : List BuilderId} {s s2 : RawCache} {r : Res Val}
    (hgd : g d (track_dependency s u d) = (r, s2)) (hr : ∀ v, r ≠ .ok v) :
    resolveSteps g u (d :: rest) s = (r.castFail, s2) := by
  rw [resolveSteps_cons, hgd]
  cases r with
  | ok v => exact absurd rfl (hr v)
  | err e => rfl
  | abort => rfl
  | fuel => rfl

theorem resolveSteps_tag {W : World}
    {g : BuilderId → RawCache → Res Val × RawCache}
    (hg : ∀ d t, TagInv W t →
      TagInv W ((g d t)).2 ∧ (g d t).1 ≠ .abort) :
    ∀ (l : List BuilderId) (u : BuilderId) (s : RawCache), TagInv W s →
      TagInv W ((resolveSteps g u l s)).2 ∧
        (resolveSteps g u l s).1 ≠ .abort := by
  intro l
  induction l with
  | nil =>
      intro u s h
      rw [resolveSteps_nil]
      exact ⟨h, by simp⟩
  | cons d rest ih =>
      intro u s h
      have h1 : TagInv W (track_dependency s u d) :=
        tagInv_of_eq (track_art s u d) (track_dyn s u d) h
      rcases hgd : g d (track_dependency s u d) with ⟨r, s2⟩
      have h2 := hg d (track_dependency s u d) h1
      rw [hgd] at h2
      cases r with
      | ok v =>
          rcases hrs : resolveSteps g u rest s2 with ⟨r3, s3⟩
          have h3 := ih u s2 h2.1
          rw [hrs] at h3
          cases r3 with
          | ok vs =>
              rw [resolveSteps_cons_ok_ok hgd hrs]
              exact ⟨h3.1, by simp⟩
          | err e =>
              rw [resolveSteps_cons_ok_fail hgd hrs (by simp)]
              exact ⟨h3.1, by simp [Res.castFail]⟩
          | abort => exact absurd rfl h3.2
          | fuel =>
              rw [resolveSteps_cons_ok_fail hgd hrs (by simp)]
              exact ⟨h3.1, by simp [Res.castFail]⟩
      | err e =>
          rw [resolveSteps_cons_fail hgd (by simp)]
          exact ⟨h2.1, by simp [Res.castFail]⟩
      | abort => exact absurd rfl h2.2
      | fuel =>
          rw [resolveSteps_cons_fail hgd (by simp)]
          exact ⟨h2.1, by simp [Res.castFail]⟩

theorem track_ranked {s : RawCache} {rank : BuilderId → Nat}
    (hr : Ranked s.dependents rank) {u d : BuilderId} (hd : rank d < rank u) :
    Ranked ((track_dependency s u d)).dependents rank := by
  intro p q hmem
  rw [track_findSet] at hmem
  by_cases hp : p = d
  · subst hp
    rw [if_pos rfl] at hmem
    by_cases hu : u ∈ findSet s.dependents p
    · rw [if_pos hu] at hmem
      exact hr p q hmem
    · rw [if_neg hu] at hmem
      rcases List.mem_cons.1 hmem with rfl | hmem
      · exact hd
      · exact hr p q hmem
  · rw [if_neg hp] at hmem
    exact hr p q hmem

theorem edgeInv_transport {s t : RawCache} (hb : t.built_with = s.built_with)
    (ha : t.artifacts = s.artifacts)
    (hd : ∀ q x, x ∈ findSet s.dependents q → x ∈ findSet t.dependents q)
    (h : EdgeInvariant s) : EdgeInvariant t :=
  fun u l c hbw hart p hp =>
    hd p u (h u l c (hb ▸ hbw) (ha ▸ hart) p hp)

theorem edgeInv_track {s : RawCache} (h : EdgeInvariant s) (u d : BuilderId) :
    EdgeInvariant (track_dependency s u d) :=
  edgeInv_transport (track_ghost s u d) (track_art s u d)
    (fun q x hx => track_findSet_grow s u d q x hx) h

theorem resolveSteps_artchg {g : BuilderId → RawCache → Res Val × RawCache}
    {rank : BuilderId → Nat}
    (hg : ∀ d t x, find? ((g d t)).2.artifacts x ≠ find? t.artifacts x →
      rank x ≤ rank d) :
    ∀ (l : List BuilderId) (u : BuilderId) (s : RawCache),
      (∀ d ∈ l, rank d < rank u) → ∀ x,
      find? ((resolveSteps g u l s)).2.artifacts x ≠ find? s.artifacts x →
      rank x < rank u := by
  intro l
  induction l with
  | nil =>
      intro u s _ x hchg
      rw [resolveSteps_nil] at hchg
      exact absurd rfl hchg
  | cons d rest ih =>
      intro u s hl x hchg
      rcases hgd : g d (track_dependency s u d) with ⟨r, s2⟩
      have hstep : find? s2.artifacts x ≠ find? s.artifacts x → rank x < rank u := by
        intro hne
        have := hg d (track_dependency s u d) x (by
          rw [hgd, track_art]
          exact hne)
        exact lt_of_le_of_lt this (hl d (List.mem_cons_self _ _))
      cases r with
      | ok v =>
          rcases hrs : resolveSteps g u rest s2 with ⟨r3, s3⟩
          have hrest : find? s3.artifacts x ≠ find? s2.artifacts x →
              rank x < rank u := by
            intro hne
            exact ih u s2 (fun d hd => hl d (List.mem_cons_of_mem _ hd)) x
              (by rw [hrs]; exact hne)
          have hfinal : find? ((resolveSteps g u (d :: rest) s)).2.artifacts x =
              find? s3.artifacts x := by
            cases r3 with
            | ok vs => rw [resolveSteps_cons_ok_ok hgd hrs]
            | err e => rw [resolveSteps_cons_ok_fail hgd hrs (by simp)]
            | abort => rw [resolveSteps_cons_ok_fail hgd hrs (by simp)]
            | fuel => rw [resolveSteps_cons_ok_fail hgd hrs (by simp)]
          rw [hfinal] at hchg
          by_cases h2 : find? s2.artifacts x = find? s.artifacts x
          · exact hrest (by rw [h2]; exact hchg)
          · exact hstep h2
      | err e =>
          rw [resolveSteps_cons_fail hgd (by simp)] at hchg
          exact hstep hchg
      | abort =>
          rw [resolveSteps_cons_fail hgd (by simp)] at hchg
          exact hstep hchg
      | fuel =>
          rw [resolveSteps_cons_fail hgd (by simp)] at hchg
          exact hstep hchg

theorem resolveSteps_ranked {g : BuilderId → RawCache → Res Val × RawCache}
    {rank : BuilderId → Nat}
    (hg : ∀ d t, Ranked t.dependents rank →
      Ranked ((g d t)).2.dependents rank) :
    ∀ (l : List BuilderId) (u : BuilderId) (s : RawCache),
      (∀ d ∈ l, rank d < rank u) → Ranked s.dependents rank →
      Ranked ((resolveSteps g u l s)).2.dependents rank := by
  intro l
  induction l with
  | nil =>
      intro u s _ hr
      rw [resolveSteps_nil]
      exact hr
  | cons d rest ih =>
      intro u s hl hr
      rcases hgd : g d (track_dependency s u d) with ⟨r, s2⟩
      have h2 : Ranked s2.dependents rank := by
        have := hg d (track_dependency s u d)
          (track_ranked hr (hl d (List.mem_cons_self _ _)))
        rw [hgd] at this
        exact this
      cases r with
      | ok v =>
          rcases hrs : resolveSteps g u rest s2 with ⟨r3, s3⟩
          have h3 : Ranked s3.dependents rank := by
            have := ih u s2 (fun d hd => hl d (List.mem_cons_of_mem _ hd)) h2
            rw [hrs] at this
            exact this
          cases r3 with
          | ok vs => rw [resolveSteps_cons_ok_ok hgd hrs]; exact h3
          | err e => rw [resolveSteps_cons_ok_fail hgd hrs (by simp)]; exact h3
          | abort => rw [resolveSteps_cons_ok_fail hgd hrs (by simp)]; exact h3
          | fuel => rw [resolveSteps_cons_ok_fail hgd hrs (by simp)]; exact h3
      | err e => rw [resolveSteps_cons_fail hgd (by simp)]; exact h2
      | abort => rw [resolveSteps_cons_fail hgd (by simp)]; exact h2
      | fuel => rw [resolveSteps_cons_fail hgd (by simp)]; exact h2

theorem resolveSteps_edgeinv {g : BuilderId → RawCache → Res Val × RawCache}
    (hg : ∀ d t, EdgeInvariant t → EdgeInvariant ((g d t)).2) :
    ∀ (l : List BuilderId) (u : BuilderId) (s : RawCache),
      EdgeInvariant s → EdgeInvariant ((resolveSteps g u l s)).2 := by
  intro l
  induction l with
  | nil =>
      intro u s h
      rw [resolveSteps_nil]
      exact h
  | cons d rest ih =>
      intro u s h
      rcases hgd : g d (track_dependency s u d) with ⟨r, s2⟩
      have h2 : EdgeInvariant s2 := by
        have := hg d (track_dependency s u d) (edgeInv_track h u d)
        rw [hgd] at this
        exact this
      cases r with
      | ok v =>
          rcases hrs : resolveSteps g u rest s2 with ⟨r3, s3⟩
          have h3 : EdgeInvariant s3 := by
            have := ih u s2 h2
            rw [hrs] at this
            exact this
          cases r3 with
          | ok vs => rw [resolveSteps_cons_ok_ok hgd hrs]; exact h3
          | err e => rw [resolveSteps_cons_ok_fail hgd hrs (by simp)]; exact h3
          | abort => rw [resolveSteps_cons_ok_fail hgd hrs (by simp)]; exact h3
          | fuel => rw [resolveSteps_cons_ok_fail hgd hrs (by simp)]; exact h3
      | err e => rw [resolveSteps_cons_fail hgd (by simp)]; exact h2
      | abort => rw [resolveSteps_cons_fail hgd (by simp)]; exact h2
      | fuel => rw [resolveSteps_cons_fail hgd (by simp)]; exact h2

theorem resolveSteps_tracked {g : BuilderId → RawCache → Res Val × RawCache}
    (hgg : ∀ d t, BuildGrow t ((g d t)).2) :
    ∀ (l : List BuilderId) (u : BuilderId) (s : RawCache) (vs : List Val)
      (sf : RawCache), resolveSteps g u l s = (.ok vs, sf) →
      ∀ d ∈ l, u ∈ findSet sf.dependents d := by
  intro l
  induction l with
  | nil =>
      intro u s vs sf _ d hd
      simp at hd
  | cons d0 rest ih =>
      intro u s vs sf hres d hd
      rcases hgd : g d0 (track_dependency s u d0) with ⟨r, s2⟩
      cases r with
      | ok v =>
          rcases hrs : resolveSteps g u rest s2 with ⟨r3, s3⟩
          cases r3 with
          | ok vs0 =>
              rw [resolveSteps_cons_ok_ok hgd hrs] at hres
              have hsf : sf = s3 := by
                cases hres
                rfl
              subst hsf
              rcases List.mem_cons.1 hd with rfl | hd
              · have h0 : u ∈ findSet ((track_dependency s u d)).dependents d :=
                  track_findSet_self s u d
                have h1 : u ∈ findSet s2.dependents d := by
                  have := (hgg d (track_dependency s u d)).2.2 d u h0
                  rw [hgd] at this
                  exact this
                have := (resolveSteps_grow hgg rest u s2).2.2 d u h1
                rw [hrs] at this
                exact this
              · exact ih u s2 vs0 sf hrs d hd
          | err e =>
              rw [resolveSteps_cons_ok_fail hgd hrs (by simp)] at hres
              simp [Res.castFail] at hres
          | abort =>
              rw [resolveSteps_cons_ok_fail hgd hrs (by simp)] at hres
              simp [Res.castFail] at hres
          | fuel =>
              rw [resolveSteps_cons_ok_fail hgd hrs (by simp)] at hres
              simp [Res.castFail] at hres
      | err e =>
          rw [resolveSteps_cons_fail hgd (by simp)] at hres
          simp [Res.castFail] at hres
      | abort =>
          rw [resolveSteps_cons_fail hgd (by simp)] at hres
          simp [Res.castFail] at hres
      | fuel =>
          rw [resolveSteps_cons_fail hgd (by simp)] at hres
          simp [Res.castFail] at hres

theorem ensure_shape (W : World) (s : RawCache) (p : BuilderId) :
    (∃ v, (ensure_dyn_state W s p).1 = .ok v) ∨
      (ensure_dyn_state W s p).1 = .abort := by
  cases hd : find? s.dyn_states p with
  | some d =>
      by_cases ht : d.tag = (W p).dynTag
      · rw [ensure_eq_of_some W s p d hd ht]
        exact Or.inl ⟨d.val, rfl⟩
      · right
        unfold ensure_dyn_state
        rw [hd]
        simp [ht]
  | none =>
      rw [ensure_eq_of_none W s p hd]
      exact Or.inl ⟨(W p).initDyn, rfl⟩

theorem buildStep_ensure_abort {W : World}
    {g : BuilderId → RawCache → Res Val × RawCache} {p : BuilderId}
    {s s1 : RawCache}
    (hens : ensure_dyn_state W (make_builder_known s p) p = (.abort, s1)) :
    buildStep W g p s = (.abort, s1) := by
  simp only [buildStep]
  rw [hens]
  rfl

theorem buildStep_resolve_fail {W : World}
    {g : BuilderId → RawCache → Res Val × RawCache} {p : BuilderId}
    {s s1 s2 : RawCache} {st : Val} {r : Res (List Val)}
    (hens : ensure_dyn_state W (make_builder_known s p) p = (.ok st, s1))
    (hres : resolveSteps g p ((W p).deps st) s1 = (r, s2))
    (hr : ∀ vs, r ≠ .ok vs) :
    buildStep W g p s = (r.castFail, s2) := by
  simp only [buildStep]
  rw [hens]
  show (match resolveSteps g p ((W p).deps st) s1 with
    | (.ok vals, s2) =>
        match (W p).buildFn st vals with
        | .ok a =>
            ((.ok a : Res Val),
              { s2 with
                  artifacts := insertRep s2.artifacts p ⟨(W p).artTag, a⟩,
                  built_with := insertRep s2.built_with p ((W p).deps st) })
        | .error e => (.err e, s2)
    | (r, s2) => (r.castFail, s2)) = (r.castFail, s2)
  rw [hres]
  cases r with
  | ok vs => exact absurd rfl (hr vs)
  | err e => rfl
  | abort => rfl
  | fuel => rfl

theorem buildStep_build_err {W : World}
    {g : BuilderId → RawCache → Res Val × RawCache} {p : BuilderId}
    {s s1 s2 : RawCache} {st : Val} {vals : List Val} {e : Val}
    (hens : ensure_dyn_state W (make_builder_known s p) p = (.ok st, s1))
    (hres : resolveSteps g p ((W p).deps st) s1 = (.ok vals, s2))
    (hfn : (W p).buildFn st vals = .error e) :
    buildStep W g p s = (.err e, s2) := by
  simp only [buildStep]
  rw [hens]
  show (match resolveSteps g p ((W p).deps st) s1 with
    | (.ok vals, s2) =>
        match (W p).buildFn st vals with
        | .ok a =>
            ((.ok a : Res Val),
              { s2 with
                  artifacts := insertRep s2.artifacts p ⟨(W p).artTag, a⟩,
                  built_with := insertRep s2.built_with p ((W p).deps st) })
        | .error e => (.err e, s2)
    | (r, s2) => (r.castFail, s2)) = (.err e, s2)
  rw [hres]
  show (match (W p).buildFn st vals with
    | .ok a =>
        ((.ok a : Res Val),
          { s2 with
              artifacts := insertRep s2.artifacts p ⟨(W p).artTag, a⟩,
              built_with := insertRep s2.built_with p ((W p).deps st) })
    | .error e => (.err e, s2)) = (.err e, s2)
  rw [hfn]

theorem buildStep_build_ok {W : World}
    {g : BuilderId → RawCache → Res Val × RawCache} {p : BuilderId}
    {s s1 s2 : RawCache} {st : Val} {vals : List Val} {a : Val}
    (hens : ensure_dyn_state W (make_builder_known s p) p = (.ok st, s1))
    (hres : resolveSteps g p ((W p).deps st) s1 = (.ok vals, s2))
    (hfn : (W p).buildFn st vals = .ok a) :
    buildStep W g p s =
      (.ok a,
        { s2 with
            artifacts := insertRep s2.artifacts p ⟨(W p).artTag, a⟩,
            built_with := insertRep s2.built_with p ((W p).deps st) }) := by
  simp only [buildStep]
  rw [hens]
  show (match resolveSteps g p ((W p).deps st) s1 with
    | (.ok vals, s2) =>
        match (W p).buildFn st vals with
        | .ok a =>
            ((.ok a : Res Val),
              { s2 with
                  artifacts := insertRep s2.artifacts p ⟨(W p).artTag, a⟩,
                  built_with := insertRep s2.built_with p ((W p).deps st) })
        | .error e => (.err e, s2)
    | (r, s2) => (r.castFail, s2)) = _
  rw [hres]
  show (match (W p).buildFn st vals with
    | .ok a =>
        ((.ok a : Res Val),
          { s2 with
              artifacts := insertRep s2.artifacts p ⟨(W p).artTag, a⟩,
              built_with := insertRep s2.built_with p ((W p).deps st) })
    | .error e => (.err e, s2)) = _
  rw [hfn]

theorem getStep_eq_hit {W : World}
    {g : BuilderId → RawCache → Res Val × RawCache} {p : BuilderId}
    {s : RawCache} {v : Val} (h : lookupArt W s p = .hit v) :
    getStep W g p s = (.ok v, s) := by
  unfold getStep
  rw [h]

theorem getStep_eq_bad {W : World}
    {g : BuilderId → RawCache → Res Val × RawCache} {p : BuilderId}
    {s : RawCache} (h : lookupArt W s p = .bad) :
    getStep W g p s = (.abort, s) := by
  unfold getStep
  rw [h]

theorem getStep_eq_miss {W : World}
    {g : BuilderId → RawCache → Res Val × RawCache} {p : BuilderId}
    {s : RawCache} (h : lookupArt W s p = .miss) :
    getStep W g p s = buildStep W g p s := by
  unfold getStep
  rw [h]

theorem getBase_eq_hit {W : World} {p : BuilderId} {s : RawCache} {v : Val}
    (h : lookupArt W s p = .hit v) : getBase W p s = (.ok v, s) := by
  unfold getBase
  rw [h]

theorem getBase_eq_bad {W : World} {p : BuilderId} {s : RawCache}
    (h : lookupArt W s p = .bad) : getBase W p s = (.abort, s) := by
  unfold getBase
  rw [h]

theorem getBase_eq_miss {W : World} {p : BuilderId} {s : RawCache}
    (h : lookupArt W s p = .miss) : getBase W p s = (.fuel, s) := by
  unfold getBase
  rw [h]

theorem getFuel_zero (W : World) (p : BuilderId) (s : RawCache) :
    getFuel W 0 p s = getBase W p s := rfl

theorem getFuel_succ (W : World) (f : Nat) (p : BuilderId) (s : RawCache) :
    getFuel W (f + 1) p s = getStep W (getFuel W f) p s := rfl

theorem ensure_abort_dyn_some {W : World} {s : RawCache} {p : BuilderId}
    {s1 : RawCache} (hens : ensure_dyn_state W s p = (.abort, s1)) :
    (find? s1.dyn_states p).isSome := by
  have := ensure_dyn_isSome W s p
  rw [hens] at this
  exact this

theorem buildStep_grow {W : World}
    {g : BuilderId → RawCache → Res Val × RawCache}
    (hgg : ∀ d t, BuildGrow t ((g d t)).2) (p : BuilderId) (s : RawCache) :
    BuildGrow s ((buildStep W g p s)).2 := by
  rcases hens : ensure_dyn_state W (make_builder_known s p) p with ⟨r1, s1⟩
  have hg0 : BuildGrow s s1 := by
    have h2 := ensure_buildGrow W (make_builder_known s p) p
    rw [hens] at h2
    exact buildGrow_trans (make_known_buildGrow s p) h2
  cases r1 with
  | ok st =>
      rcases hres : resolveSteps g p ((W p).deps st) s1 with ⟨r2, s2⟩
      have hg1 : BuildGrow s1 s2 := by
        have := resolveSteps_grow hgg ((W p).deps st) p s1
        rw [hres] at this
        exact this
      cases r2 with
      | ok vals =>
          cases hfn : (W p).buildFn st vals with
          | ok a =>
              rw [buildStep_build_ok hens hres hfn]
              exact buildGrow_trans (buildGrow_trans hg0 hg1)
                ⟨fun q _ => rfl, fun q _ => rfl, fun q x hx => hx⟩
          | error e =>
              rw [buildStep_build_err hens hres hfn]
              exact buildGrow_trans hg0 hg1
      | err e =>
          rw [buildStep_resolve_fail hens hres (by simp)]
          exact buildGrow_trans hg0 hg1
      | abort =>
          rw [buildStep_resolve_fail hens hres (by simp)]
          exact buildGrow_trans hg0 hg1
      | fuel =>
          rw [buildStep_resolve_fail hens hres (by simp)]
          exact buildGrow_trans hg0 hg1
  | err e =>
      have := ensure_shape W (make_builder_known s p) p
      rw [hens] at this
      simp at this
  | abort =>
      rw [buildStep_ensure_abort hens]
      exact hg0
  | fuel =>
      have := ensure_shape W (make_builder_known s p) p
      rw [hens] at this
      simp at this

theorem buildStep_tag {W : World}
    {g : BuilderId → RawCache → Res Val × RawCache}
    (hg : ∀ d t, TagInv W t →
      TagInv W ((g d t)).2 ∧ (g d t).1 ≠ .abort)
    (p : BuilderId) {s : RawCache} (h : TagInv W s) :
    TagInv W ((buildStep W g p s)).2 ∧ (buildStep W g p s).1 ≠ .abort := by
  have h0 : TagInv W (make_builder_known s p) :=
    tagInv_of_eq (make_known_art s p) (make_known_dyn s p) h
  rcases hens : ensure_dyn_state W (make_builder_known s p) p with ⟨r1, s1⟩
  have he := ensure_tag h0 p
  rw [hens] at he
  cases r1 with
  | ok st =>
      rcases hres : resolveSteps g p ((W p).deps st) s1 with ⟨r2, s2⟩
      have hrt := resolveSteps_tag hg ((W p).deps st) p s1 he.1
      rw [hres] at hrt
      cases r2 with
      | ok vals =>
          cases hfn : (W p).buildFn st vals with
          | ok a =>
              rw [buildStep_build_ok hens hres hfn]
              exact ⟨tagInv_of_eq rfl rfl (tagInv_insert_art hrt.1 p a),
                by simp⟩
          | error e =>
              rw [buildStep_build_err hens hres hfn]
              exact ⟨hrt.1, by simp⟩
      | err e =>
          rw [buildStep_resolve_fail hens hres (by simp)]
          exact ⟨hrt.1, by simp [Res.castFail]⟩
      | abort => exact absurd rfl hrt.2
      | fuel =>
          rw [buildStep_resolve_fail hens hres (by simp)]
          exact ⟨hrt.1, by simp [Res.castFail]⟩
  | err e =>
      have := ensure_shape W (make_builder_known s p) p
      rw [hens] at this
      simp at this
  | abort => exact absurd rfl he.2
  | fuel =>
      have := ensure_shape W (make_builder_known s p) p
      rw [hens] at this
      simp at this

theorem buildStep_art_base {W : World} {s : RawCache} {p : BuilderId}
    {r1 : Res Val} {s1 : RawCache}
    (hens : ensure_dyn_state W (make_builder_known s p) p = (r1, s1)) :
    s1.artifacts = s.artifacts := by
  have := ensure_art W (make_builder_known s p) p
  rw [hens] at this
  rw [this, make_known_art]

theorem buildStep_artchg_le {W : World} {rank : BuilderId → Nat}
    (hW : WOrder W rank) {g : BuilderId → RawCache → Res Val × RawCache}
    (hg : ∀ d t x, find? ((g d t)).2.artifacts x ≠ find? t.artifacts x →
      rank x ≤ rank d)
    (p : BuilderId) (s : RawCache) (x : BuilderId)
    (hchg : find? ((buildStep W g p s)).2.artifacts x ≠ find? s.artifacts x) :
    rank x ≤ rank p := by
  rcases hens : ensure_dyn_state W (make_builder_known s p) p with ⟨r1, s1⟩
  have hart1 : s1.artifacts = s.artifacts := buildStep_art_base hens
  cases r1 with
  | ok st =>
      rcases hres : resolveSteps g p ((W p).deps st) s1 with ⟨r2, s2⟩
      have hres_chg : find? s2.artifacts x ≠ find? s.artifacts x →
          rank x < rank p := by
        intro hne
        refine resolveSteps_artchg hg ((W p).deps st) p s1
          (fun d hd => hW p st d hd) x ?_
        rw [hres, hart1]
        exact hne
      cases r2 with
      | ok vals =>
          cases hfn : (W p).buildFn st vals with
          | ok a =>
              rw [buildStep_build_ok hens hres hfn] at hchg
              by_cases hxp : x = p
              · rw [hxp]
              · simp only at hchg
                rw [find?_insertRep_ne _ _ _ _ hxp] at hchg
                exact le_of_lt (hres_chg hchg)
          | error e =>
              rw [buildStep_build_err hens hres hfn] at hchg
              exact le_of_lt (hres_chg hchg)
      | err e =>
          rw [buildStep_resolve_fail hens hres (by simp)] at hchg
          exact le_of_lt (hres_chg hchg)
      | abort =>
          rw [buildStep_resolve_fail hens hres (by simp)] at hchg
          exact le_of_lt (hres_chg hchg)
      | fuel =>
          rw [buildStep_resolve_fail hens hres (by simp)] at hchg
          exact le_of_lt (hres_chg hchg)
  | err e =>
      have := ensure_shape W (make_builder_known s p) p
      rw [hens] at this
      simp at this
  | abort =>
      rw [buildStep_ensure_abort hens] at hchg
      rw [hart1] at hchg
      exact absurd rfl hchg
  | fuel =>
      have := ensure_shape W (make_builder_known s p) p
      rw [hens] at this
      simp at this

theorem buildStep_err_art {W : World} {rank : BuilderId → Nat}
    (hW : WOrder W rank) {g : BuilderId → RawCache → Res Val × RawCache}
    (hg : ∀ d t x, find? ((g d t)).2.artifacts x ≠ find? t.artifacts x →
      rank x ≤ rank d)
    (p : BuilderId) (s : RawCache) {e : Val}
    (herr : (buildStep W g p s).1 = .err e) (x : BuilderId)
    (hchg : find? ((buildStep W g p s)).2.artifacts x ≠ find? s.artifacts x) :
    rank x < rank p := by
  rcases hens : ensure_dyn_state W (make_builder_known s p) p with ⟨r1, s1⟩
  have hart1 : s1.artifacts = s.artifacts := buildStep_art_base hens
  cases r1 with
  | ok st =>
      rcases hres : resolveSteps g p ((W p).deps st) s1 with ⟨r2, s2⟩
      have hres_chg : find? s2.artifacts x ≠ find? s.artifacts x →
          rank x < rank p := by
        intro hne
        refine resolveSteps_artchg hg ((W p).deps st) p s1
          (fun d hd => hW p st d hd) x ?_
        rw [hres, hart1]
        exact hne
      cases r2 with
      | ok vals =>
          cases hfn : (W p).buildFn st vals with
          | ok a =>
              rw [buildStep_build_ok hens hres hfn] at herr
              simp at herr
          | error e2 =>
              rw [buildStep_build_err hens hres hfn] at hchg
              exact hres_chg hchg
      | err e2 =>
          rw [buildStep_resolve_fail hens hres (by simp)] at hchg
          exact hres_chg hchg
      | abort =>
          rw [buildStep_resolve_fail hens hres (by simp)] at herr
          simp [Res.castFail] at herr
      | fuel =>
          rw [buildStep_resolve_fail hens hres (by simp)] at herr
          simp [Res.castFail] at herr
  | err e2 =>
      have := ensure_shape W (make_builder_known s p) p
      rw [hens] at this
      simp at this
  | abort =>
      rw [buildStep_ensure_abort hens] at herr
      simp at herr
  | fuel =>
      have := ensure_shape W (make_builder_known s p) p
      rw [hens] at this
      simp at this

theorem buildStep_dep_base {W : World} {s : RawCache} {p : BuilderId}
    {r1 : Res Val} {s1 : RawCache}
    (hens : ensure_dyn_state W (make_builder_known s p) p = (r1, s1)) :
    s1.dependents = s.dependents := by
  have := ensure_dep W (make_builder_known s p) p
  rw [hens] at this
  rw [this, make_known_dep]

theorem buildStep_ranked {W : World} {rank : BuilderId → Nat}
    (hW : WOrder W rank) {g : BuilderId → RawCache → Res Val × RawCache}
    (hg : ∀ d t, Ranked t.dependents rank → Ranked ((g d t)).2.dependents rank)
    (p : BuilderId) {s : RawCache} (hr : Ranked s.dependents rank) :
    Ranked ((buildStep W g p s)).2.dependents rank := by
  rcases hens : ensure_dyn_state W (make_builder_known s p) p with ⟨r1, s1⟩
  have hdep1 : s1.dependents = s.dependents := buildStep_dep_base hens
  have hr1 : Ranked s1.dependents rank := by
    rw [hdep1]
    exact hr
  cases r1 with
  | ok st =>
      rcases hres : resolveSteps g p ((W p).deps st) s1 with ⟨r2, s2⟩
      have hr2 : Ranked s2.dependents rank := by
        have := resolveSteps_ranked hg ((W p).deps st) p s1
          (fun d hd => hW p st d hd) hr1
        rw [hres] at this
        exact this
      cases r2 with
      | ok vals =>
          cases hfn : (W p).buildFn st vals with
          | ok a =>
              rw [buildStep_build_ok hens hres hfn]
              exact hr2
          | error e =>
              rw [buildStep_build_err hens hres hfn]
              exact hr2
      | err e =>
          rw [buildStep_resolve_fail hens hres (by simp)]
          exact hr2
      | abort =>
          rw [buildStep_resolve_fail hens hres (by simp)]
          exact hr2
      | fuel =>
          rw [buildStep_resolve_fail hens hres (by simp)]
          exact hr2
  | err e =>
      have := ensure_shape W (make_builder_known s p) p
      rw [hens] at this
      simp at this
  | abort =>
      rw [buildStep_ensure_abort hens]
      exact hr1
  | fuel =>
      have := ensure_shape W (make_builder_known s p) p
      rw [hens] at this
      simp at this

theorem buildStep_edgeinv {W : World}
    {g : BuilderId → RawCache → Res Val × RawCache}
    (hgg : ∀ d t, BuildGrow t ((g d t)).2)
    (hge : ∀ d t, EdgeInvariant t → EdgeInvariant ((g d t)).2)
    (p : BuilderId) {s : RawCache} (h : EdgeInvariant s) :
    EdgeInvariant ((buildStep W g p s)).2 := by
  rcases hens : ensure_dyn_state W (make_builder_known s p) p with ⟨r1, s1⟩
  have h1 : EdgeInvariant s1 := by
    refine edgeInv_transport ?_ ?_ ?_ h
    · have := ensure_ghost W (make_builder_known s p) p
      rw [hens] at this
      rw [this, make_known_ghost]
    · exact buildStep_art_base hens
    · intro q x hx
      rw [buildStep_dep_base hens]
      exact hx
  cases r1 with
  | ok st =>
      rcases hres : resolveSteps g p ((W p).deps st) s1 with ⟨r2, s2⟩
      have h2 : EdgeInvariant s2 := by
        have := resolveSteps_edgeinv hge ((W p).deps st) p s1 h1
        rw [hres] at this
        exact this
      cases r2 with
      | ok vals =>
          cases hfn : (W p).buildFn st vals with
          | ok a =>
              rw [buildStep_build_ok hens hres hfn]
              intro u l c hbw hart q hq
              simp only at hbw hart
              by_cases hup : u = p
              · subst hup
                rw [find?_insertRep_self] at hbw
                cases hbw
                exact resolveSteps_tracked hgg _ _ s1 vals s2 hres q hq
              · rw [find?_insertRep_ne _ _ _ _ hup] at hbw
                rw [find?_insertRep_ne _ _ _ _ hup] at hart
                exact h2 u l c hbw hart q hq
          | error e =>
              rw [buildStep_build_err hens hres hfn]
              exact h2
      | err e =>
          rw [buildStep_resolve_fail hens hres (by simp)]
          exact h2
      | abort =>
          rw [buildStep_resolve_fail hens hres (by simp)]
          exact h2
      | fuel =>
          rw [buildStep_resolve_fail hens hres (by simp)]
          exact h2
  | err e =>
      have := ensure_shape W (make_builder_known s p) p
      rw [hens] at this
      simp at this
  | abort =>
      rw [buildStep_ensure_abort hens]
      exact h1
  | fuel =>
      have := ensure_shape W (make_builder_known s p) p
      rw [hens] at this
      simp at this

theorem buildStep_known_self {W : World}
    {g : BuilderId → RawCache → Res Val × RawCache}
    (hgg : ∀ d t, BuildGrow t ((g d t)).2) (p : BuilderId) (s : RawCache) :
    (find? ((buildStep W g p s)).2.known_builders p).isSome := by
  rcases hens : ensure_dyn_state W (make_builder_known s p) p with ⟨r1, s1⟩
  have hk1 : (find? s1.known_builders p).isSome := by
    have he := ensure_known W (make_builder_known s p) p
    rw [hens] at he
    rw [he]
    exact make_known_isSome s p
  cases r1 with
  | ok st =>
      rcases hres : resolveSteps g p ((W p).deps st) s1 with ⟨r2, s2⟩
      have hk2 : (find? s2.known_builders p).isSome := by
        have := (resolveSteps_grow hgg ((W p).deps st) p s1).1 p hk1
        rw [hres] at this
        rw [this]
        exact hk1
      cases r2 with
      | ok vals =>
          cases hfn : (W p).buildFn st vals with
          | ok a =>
              rw [buildStep_build_ok hens hres hfn]
              exact hk2
          | error e =>
              rw [buildStep_build_err hens hres hfn]
              exact hk2
      | err e =>
          rw [buildStep_resolve_fail hens hres (by simp)]
          exact hk2
      | abort =>
          rw [buildStep_resolve_fail hens hres (by simp)]
          exact hk2
      | fuel =>
          rw [buildStep_resolve_fail hens hres (by simp)]
          exact hk2
  | err e =>
      have := ensure_shape W (make_builder_known s p) p
      rw [hens] at this
      simp at this
  | abort =>
      rw [buildStep_ensure_abort hens]
      exact hk1
  | fuel =>
      have := ensure_shape W (make_builder_known s p) p
      rw [hens] at this
      simp at this

theorem buildStep_dyn_self {W : World}
    {g : BuilderId → RawCache → Res Val × RawCache}
    (hgg : ∀ d t, BuildGrow t ((g d t)).2) (p : BuilderId) (s : RawCache) :
    (find? ((buildStep W g p s)).2.dyn_states p).isSome := by
  rcases hens : ensure_dyn_state W (make_builder_known s p) p with ⟨r1, s1⟩
  have hd1 : (find? s1.dyn_states p).isSome := by
    have := ensure_dyn_isSome W (make_builder_known s p) p
    rw [hens] at this
    exact this
  cases r1 with
  | ok st =>
      rcases hres : resolveSteps g p ((W p).deps st) s1 with ⟨r2, s2⟩
      have hd2 : (find? s2.dyn_states p).isSome := by
        have := (resolveSteps_grow hgg ((W p).deps st) p s1).2.1 p hd1
        rw [hres] at this
        rw [this]
        exact hd1
      cases r2 with
      | ok vals =>
          cases hfn : (W p).buildFn st vals with
          | ok a =>
              rw [buildStep_build_ok hens hres hfn]
              exact hd2
          | error e =>
              rw [buildStep_build_err hens hres hfn]
              exact hd2
      | err e =>
          rw [buildStep_resolve_fail hens hres (by simp)]
          exact hd2
      | abort =>
          rw [buildStep_resolve_fail hens hres (by simp)]
          exact hd2
      | fuel =>
          rw [buildStep_resolve_fail hens hres (by simp)]
          exact hd2
  | err e =>
      have := ensure_shape W (make_builder_known s p) p
      rw [hens] at this
      simp at this
  | abort =>
      rw [buildStep_ensure_abort hens]
      exact hd1
  | fuel =>
      have := ensure_shape W (make_builder_known s p) p
      rw [hens] at this
      simp at this

/-- On success the built artifact is stored (with its builder's tag) under
the builder's id. -/
theorem buildStep_ok_art {W : World}
    {g : BuilderId → RawCache → Res Val × RawCache} {p : BuilderId}
    {s sf : RawCache} {v : Val}
    (hok : buildStep W g p s = (.ok v, sf)) :
    find? sf.artifacts p = some ⟨(W p).artTag, v⟩ := by
  rcases hens : ensure_dyn_state W (make_builder_known s p) p with ⟨r1, s1⟩
  cases r1 with
  | ok st =>
      rcases hres : resolveSteps g p ((W p).deps st) s1 with ⟨r2, s2⟩
      cases r2 with
      | ok vals =>
          cases hfn : (W p).buildFn st vals with
          | ok a =>
              rw [buildStep_build_ok hens hres hfn] at hok
              injection hok with h1 h2
              injection h1 with h1
              subst h1
              subst h2
              simp only
              rw [find?_insertRep_self]
          | error e =>
              rw [buildStep_build_err hens hres hfn] at hok
              simp at hok
      | err e =>
          rw [buildStep_resolve_fail hens hres (by simp)] at hok
          simp [Res.castFail] at hok
      | abort =>
          rw [buildStep_resolve_fail hens hres (by simp)] at hok
          simp [Res.castFail] at hok
      | fuel =>
          rw [buildStep_resolve_fail hens hres (by simp)] at hok
          simp [Res.castFail] at hok
  | err e =>
      have := ensure_shape W (make_builder_known s p) p
      rw [hens] at this
      simp at this
  | abort =>
      rw [buildStep_ensure_abort hens] at hok
      simp at hok
  | fuel =>
      have := ensure_shape W (make_builder_known s p) p
      rw [hens] at this
      simp at this

/-! ## `get`-level lemmas, by induction on the fuel -/

theorem getFuel_grow (W : World) :
    ∀ (f : Nat) (p : BuilderId) (s : RawCache),
      BuildGrow s ((getFuel W f p s)).2 := by
  intro f
  induction f with
  | zero =>
      intro p s
      rw [getFuel_zero]
      cases hc : lookupArt W s p with
      | miss => rw [getBase_eq_miss hc]; exact buildGrow_refl s
      | hit v => rw [getBase_eq_hit hc]; exact buildGrow_refl s
      | bad => rw [getBase_eq_bad hc]; exact buildGrow_refl s
  | succ f ih =>
      intro p s
      rw [getFuel_succ]
      cases hc : lookupArt W s p with
      | miss =>
          rw [getStep_eq_miss hc]
          exact buildStep_grow (fun d t => ih d t) p s
      | hit v => rw [getStep_eq_hit hc]; exact buildGrow_refl s
      | bad => rw [getStep_eq_bad hc]; exact buildGrow_refl s

theorem getFuel_tag (W : World) :
    ∀ (f : Nat) (p : BuilderId) (s : RawCache), TagInv W s →
      TagInv W ((getFuel W f p s)).2 ∧ (getFuel W f p s).1 ≠ .abort := by
  intro f
  induction f with
  | zero =>
      intro p s h
      rw [getFuel_zero]
      cases hc : lookupArt W s p with
      | miss => rw [getBase_eq_miss hc]; exact ⟨h, by simp⟩
      | hit v => rw [getBase_eq_hit hc]; exact ⟨h, by simp⟩
      | bad => exact absurd hc (lookupArt_no_bad h p)
  | succ f ih =>
      intro p s h
      rw [getFuel_succ]
      cases hc : lookupArt W s p with
      | miss =>
          rw [getStep_eq_miss hc]
          exact buildStep_tag (fun d t ht => ih d t ht) p h
      | hit v => rw [getStep_eq_hit hc]; exact ⟨h, by simp⟩
      | bad => exact absurd hc (lookupArt_no_bad h p)

theorem getFuel_artchg {W : World} {rank : BuilderId → Nat}
    (hW : WOrder W rank) :
    ∀ (f : Nat) (p : BuilderId) (s : RawCache) (x : BuilderId),
      find? ((getFuel W f p s)).2.artifacts x ≠ find? s.artifacts x →
      rank x ≤ rank p := by
  intro f
  induction f with
  | zero =>
      intro p s x hchg
      rw [getFuel_zero] at hchg
      cases hc : lookupArt W s p with
      | miss => rw [getBase_eq_miss hc] at hchg; exact absurd rfl hchg
      | hit v => rw [getBase_eq_hit hc] at hchg; exact absurd rfl hchg
      | bad => rw [getBase_eq_bad hc] at hchg; exact absurd rfl hchg
  | succ f ih =>
      intro p s x hchg
      rw [getFuel_succ] at hchg
      cases hc : lookupArt W s p with
      | miss =>
          rw [getStep_eq_miss hc] at hchg
          exact buildStep_artchg_le hW (fun d t x h => ih d t x h) p s x hchg
      | hit v => rw [getStep_eq_hit hc] at hchg; exact absurd rfl hchg
      | bad => rw [getStep_eq_bad hc] at hchg; exact absurd rfl hchg

theorem getFuel_err_art {W : World} {rank : BuilderId → Nat}
    (hW : WOrder W rank) (f : Nat) (p : BuilderId) (s : RawCache) {e : Val}
    (herr : (getFuel W f p s).1 = .err e) (x : BuilderId)
    (hchg : find? ((getFuel W f p s)).2.artifacts x ≠ find? s.artifacts x) :
    rank x < rank p := by
  cases f with
  | zero =>
      rw [getFuel_zero] at herr
      cases hc : lookupArt W s p with
      | miss => rw [getBase_eq_miss hc] at herr; simp at herr
      | hit v => rw [getBase_eq_hit hc] at herr; simp at herr
      | bad => rw [getBase_eq_bad hc] at herr; simp at herr
  | succ f =>
      rw [getFuel_succ] at herr hchg
      cases hc : lookupArt W s p with
      | miss =>
          rw [getStep_eq_miss hc] at herr hchg
          exact buildStep_err_art hW
            (fun d t x h => getFuel_artchg hW f d t x h) p s herr x hchg
      | hit v => rw [getStep_eq_hit hc] at herr; simp at herr
      | bad => rw [getStep_eq_bad hc] at herr; simp at herr

theorem getFuel_ranked {W : World} {rank : BuilderId → Nat}
    (hW : WOrder W rank) :
    ∀ (f : Nat) (p : BuilderId) (s : RawCache), Ranked s.dependents rank →
      Ranked ((getFuel W f p s)).2.dependents rank := by
  intro f
  induction f with
  | zero =>
      intro p s hr
      rw [getFuel_zero]
      cases hc : lookupArt W s p with
      | miss => rw [getBase_eq_miss hc]; exact hr
      | hit v => rw [getBase_eq_hit hc]; exact hr
      | bad => rw [getBase_eq_bad hc]; exact hr
  | succ f ih =>
      intro p s hr
      rw [getFuel_succ]
      cases hc : lookupArt W s p with
      | miss =>
          rw [getStep_eq_miss hc]
          exact buildStep_ranked hW (fun d t h => ih d t h) p hr
      | hit v => rw [getStep_eq_hit hc]; exact hr
      | bad => rw [getStep_eq_bad hc]; exact hr

theorem getFuel_edgeinv (W : World) :
    ∀ (f : Nat) (p : BuilderId) (s : RawCache), EdgeInvariant s →
      EdgeInvariant ((getFuel W f p s)).2 := by
  intro f
  induction f with
  | zero =>
      intro p s h
      rw [getFuel_zero]
      cases hc : lookupArt W s p with
      | miss => rw [getBase_eq_miss hc]; exact h
      | hit v => rw [getBase_eq_hit hc]; exact h
      | bad => rw [getBase_eq_bad hc]; exact h
  | succ f ih =>
      intro p s h
      rw [getFuel_succ]
      cases hc : lookupArt W s p with
      | miss =>
          rw [getStep_eq_miss hc]
          exact buildStep_edgeinv (fun d t => getFuel_grow W f d t)
            (fun d t ht => ih d t ht) p h
      | hit v => rw [getStep_eq_hit hc]; exact h
      | bad => rw [getStep_eq_bad hc]; exact h

/-- On a hit, `get` returns the cached value and leaves the state unchanged,
regardless of fuel and of the builder's build function. -/
theorem getFuel_hit (W : World) (f : Nat) (p : BuilderId) (s : RawCache)
    {c : ArtCan} (hc : find? s.artifacts p = some c)
    (ht : c.tag = (W p).artTag) : getFuel W f p s = (.ok c.val, s) := by
  cases f with
  | zero =>
      rw [getFuel_zero]
      exact getBase_eq_hit (lookupArt_hit hc ht)
  | succ f =>
      rw [getFuel_succ]
      exact getStep_eq_hit (lookupArt_hit hc ht)

/-- On a miss, `get` is exactly a build. -/
theorem getFuel_miss (W : World) (f : Nat) (p : BuilderId) (s : RawCache)
    (hc : find? s.artifacts p = none) :
    getFuel W (f + 1) p s = buildStep W (getFuel W f) p s := by
  rw [getFuel_succ]
  exact getStep_eq_miss (lookupArt_miss hc)

/-! ## Weak-reference bookkeeping invariant -/

/-- Every `known_builders` entry stores exactly the weak companion produced
by downgrading the registered promise: a weak handle on the key itself. -/
def WeakInv (s : RawCache) : Prop :=
  ∀ kv ∈ s.known_builders, kv.2 = Weak.mk kv.1

theorem mem_insertRep {V : Type} {m : List (BuilderId × V)} {k : BuilderId}
    {v : V} {kv : BuilderId × V} (h : kv ∈ insertRep m k v) :
    kv ∈ m ∨ kv = (k, v) := by
  induction m with
  | nil =>
      simp [insertRep] at h
      exact Or.inr h
  | cons kv0 rest ih =>
      obtain ⟨k0, v0⟩ := kv0
      by_cases h0 : k0 = k
      · subst h0
        simp only [insertRep, if_pos rfl] at h
        rcases List.mem_cons.1 h with rfl | h
        · exact Or.inr rfl
        · exact Or.inl (List.mem_cons_of_mem _ h)
      · simp only [insertRep, if_neg h0] at h
        rcases List.mem_cons.1 h with rfl | h
        · exact Or.inl (List.mem_cons_self _ _)
        · rcases ih h with h | h
          · exact Or.inl (List.mem_cons_of_mem _ h)
          · exact Or.inr h

theorem weakInv_sub {s t : RawCache}
    (hsub : ∀ kv, kv ∈ t.known_builders → kv ∈ s.known_builders)
    (h : WeakInv s) : WeakInv t :=
  fun kv hkv => h kv (hsub kv hkv)

theorem weakInv_eq {s t : RawCache}
    (he : t.known_builders = s.known_builders) (h : WeakInv s) : WeakInv t :=
  weakInv_sub (fun _ hkv => he ▸ hkv) h

theorem weakInv_make_known {s : RawCache} (h : WeakInv s) (p : BuilderId) :
    WeakInv (make_builder_known s p) := by
  unfold make_builder_known
  cases hk : find? s.known_builders p with
  | some w => exact h
  | none =>
      intro kv hkv
      simp only at hkv
      rcases mem_insertRep hkv with hkv | rfl
      · exact h kv hkv
      · rfl

theorem weakInv_invErase {s t : RawCache} (h1 : InvErase s t)
    (h : WeakInv s) : WeakInv t :=
  weakInv_eq h1.2.1 h

theorem resolveSteps_weak {g : BuilderId → RawCache → Res Val × RawCache}
    (hg : ∀ d t, WeakInv t → WeakInv ((g d t)).2) :
    ∀ (l : List BuilderId) (u : BuilderId) (s : RawCache),
      WeakInv s → WeakInv ((resolveSteps g u l s)).2 := by
  intro l
  induction l with
  | nil =>
      intro u s h
      rw [resolveSteps_nil]
      exact h
  | cons d rest ih =>
      intro u s h
      rcases hgd : g d (track_dependency s u d) with ⟨r, s2⟩
      have h2 : WeakInv s2 := by
        have := hg d (track_dependency s u d) (weakInv_eq (track_known s u d) h)
        rw [hgd] at this
        exact this
      cases r with
      | ok v =>
          rcases hrs : resolveSteps g u rest s2 with ⟨r3, s3⟩
          have h3 : WeakInv s3 := by
            have := ih u s2 h2
            rw [hrs] at this
            exact this
          cases r3 with
          | ok vs => rw [resolveSteps_cons_ok_ok hgd hrs]; exact h3
          | err e => rw [resolveSteps_cons_ok_fail hgd hrs (by simp)]; exact h3
          | abort => rw [resolveSteps_cons_ok_fail hgd hrs (by simp)]; exact h3
          | fuel => rw [resolveSteps_cons_ok_fail hgd hrs (by simp)]; exact h3
      | err e => rw [resolveSteps_cons_fail hgd (by simp)]; exact h2
      | abort => rw [resolveSteps_cons_fail hgd (by simp)]; exact h2
      | fuel => rw [resolveSteps_cons_fail hgd (by simp)]; exact h2

theorem buildStep_weak {W : World}
    {g : BuilderId → RawCache → Res Val × RawCache}
    (hg : ∀ d t, WeakInv t → WeakInv ((g d t)).2)
    (p : BuilderId) {s : RawCache} (h : WeakInv s) :
    WeakInv ((buildStep W g p s)).2 := by
  rcases hens : ensure_dyn_state W (make_builder_known s p) p with ⟨r1, s1⟩
  have h1 : WeakInv s1 := by
    refine weakInv_eq ?_ (weakInv_make_known h p)
    have := ensure_known W (make_builder_known s p) p
    rw [hens] at this
    exact this
  cases r1 with
  | ok st =>
      rcases hres : resolveSteps g p ((W p).deps st) s1 with ⟨r2, s2⟩
      have h2 : WeakInv s2 := by
        have := resolveSteps_weak hg ((W p).deps st) p s1 h1
        rw [hres] at this
        exact this
      cases r2 with
      | ok vals =>
          cases hfn : (W p).buildFn st vals with
          | ok a =>
              rw [buildStep_build_ok hens hres hfn]
              exact h2
          | error e =>
              rw [buildStep_build_err hens hres hfn]
              exact h2
      | err e =>
          rw [buildStep_resolve_fail hens hres (by simp)]
          exact h2
      | abort =>
          rw [buildStep_resolve_fail hens hres (by simp)]
          exact h2
      | fuel =>
          rw [buildStep_resolve_fail hens hres (by simp)]
          exact h2
  | err e =>
      have := ensure_shape W (make_builder_known s p) p
      rw [hens] at this
      simp at this
  | abort =>
      rw [buildStep_ensure_abort hens]
      exact h1
  | fuel =>
      have := ensure_shape W (make_builder_known s p) p
      rw [hens] at this
      simp at this

theorem getFuel_weak (W : World) :
    ∀ (f : Nat) (p : BuilderId) (s : RawCache), WeakInv s →
      WeakInv ((getFuel W f p s)).2 := by
  intro f
  induction f with
  | zero =>
      intro p s h
      rw [getFuel_zero]
      cases hc : lookupArt W s p with
      | miss => rw [getBase_eq_miss hc]; exact h
      | hit v => rw [getBase_eq_hit hc]; exact h
      | bad => rw [getBase_eq_bad hc]; exact h
  | succ f ih =>
      intro p s h
      rw [getFuel_succ]
      cases hc : lookupArt W s p with
      | miss =>
          rw [getStep_eq_miss hc]
          exact buildStep_weak (fun d t ht => ih d t ht) p h
      | hit v => rw [getStep_eq_hit hc]; exact h
      | bad => rw [getStep_eq_bad hc]; exact h

/-! ## Edge invariant through invalidation -/

theorem tagInv_invErase {W : World} {s t : RawCache} (h1 : InvErase s t)
    (h : TagInv W s) : TagInv W t := by
  constructor
  · intro q c hc
    rcases h1.2.2.2.1 q with he | he
    · rw [he] at hc
      exact h.1 q c hc
    · rw [he] at hc
      cases hc
  · intro q d hd
    rw [h1.1] at hd
    exact h.2 q d hd

/-- Invalidation keeps the edge invariant: whenever it erases a `dependents`
entry, it also kills the artifacts of all recorded members. -/
theorem edgeInv_invAny {s : RawCache} {rank : BuilderId → Nat}
    (hr : Ranked s.dependents rank) (h : EdgeInvariant s) (b : BuilderId) :
    EdgeInvariant (invalidate_any s b) := by
  intro u l c hbw hart q hq
  have hinv := invalidate_any_invErase s b
  rw [hinv.2.2.1] at hbw
  have hart_s : find? s.artifacts u = some c := by
    rcases hinv.2.2.2.1 u with he | he
    · rw [← he]
      exact hart
    · rw [he] at hart
      cases hart
  have hmem : u ∈ findSet s.dependents q := h u l c hbw hart_s q hq
  rcases hinv.2.2.2.2.1 q with he | he
  · unfold findSet
    rw [he]
    exact hmem
  · exfalso
    have hchg : find? ((invalidate_any s b)).dependents q ≠
        find? s.dependents q := by
      rw [he]
      intro hcontra
      have := findSet_isSome_of_mem hmem
      rw [← hcontra] at this
      simp at this
    have hrq : DepReach s.dependents b q :=
      (invAnyFuel_changed _ s b q).2 hchg
    have hru : DepReach s.dependents b u :=
      hrq.trans (DepReach.step hmem (DepReach.refl u))
    have := invalidate_any_kills s b rank hr u hru
    rw [this] at hart
    cases hart

theorem edgeInv_invDeps {s : RawCache} {rank : BuilderId → Nat}
    (hr : Ranked s.dependents rank) (h : EdgeInvariant s) (p : BuilderId) :
    EdgeInvariant (invalidate_dependents s p) := by
  intro u l c hbw hart q hq
  have hinv := invDeps_invErase s p
  rw [hinv.2.2.1] at hbw
  have hart_s : find? s.artifacts u = some c := by
    rcases hinv.2.2.2.1 u with he | he
    · rw [← he]
      exact hart
    · rw [he] at hart
      cases hart
  have hmem : u ∈ findSet s.dependents q := h u l c hbw hart_s q hq
  by_cases hqp : q = p
  · subst hqp
    exfalso
    have := invDeps_kills s q rank hr u u hmem (DepReach.refl u)
    rw [this] at hart
    cases hart
  unfold invalidate_dependents at hart ⊢
  cases hdep : find? s.dependents p with
  | none =>
      unfold findSet
      exact hmem
  | some set =>
      rw [hdep] at hart
      have hs1sub : ∀ q2,
          findSet (eraseKey s.dependents p) q2 ⊆ findSet s.dependents q2 :=
        findSet_eraseKey_sub s.dependents p
      have hmem1 : u ∈ findSet
          ({ s with dependents := eraseKey s.dependents p }).dependents q := by
        show u ∈ findSet (eraseKey s.dependents p) q
        rw [findSet_eraseKey_ne _ _ _ hqp]
        exact hmem
      by_cases hch : find? ((List.foldl
          (invalidateAnyFuel s.dependents.length)
          { s with dependents := eraseKey s.dependents p } set)).dependents q =
          find? ({ s with dependents := eraseKey s.dependents p }).dependents q
      · unfold findSet
        rw [hch]
        show u ∈ (find? (eraseKey s.dependents p) q).getD []
        rw [find?_eraseKey_ne _ _ _ hqp]
        exact hmem
      · exfalso
        have hfold := (foldl_changed
          (fun t b => invAnyFuel_invErase s.dependents.length t b)
          (fun t b x => (invAnyFuel_changed s.dependents.length t b x).1)
          (fun t b x => (invAnyFuel_changed s.dependents.length t b x).2) set
          { s with dependents := eraseKey s.dependents p } q).2 hch
        rcases hfold with ⟨w, hw, hwreach⟩
        have hwreach_u : DepReach (eraseKey s.dependents p) w u :=
          hwreach.trans (DepReach.step hmem1 (DepReach.refl u))
        have hwmem : w ∈ findSet s.dependents p := by
          unfold findSet
          rw [hdep]
          exact hw
        have hkill := invDeps_kills s p rank hr w u hwmem
          (hwreach_u.mono_reach (findSet_eraseKey_sub s.dependents p))
        unfold invalidate_dependents at hkill
        rw [hdep] at hkill
        rw [hkill] at hart
        cases hart

/-! ## Per-operation invariant preservation -/

theorem getRef_eq (W : World) (f : Nat) :
    getRefFuel W f = getFuel W f := by
  cases f <;> rfl

theorem getCloned_eq (W : World) (f : Nat) (p : BuilderId) (s : RawCache) :
    getClonedFuel W f p s = getFuel W f p s := by
  unfold getClonedFuel
  rw [getRef_eq]

theorem getMut_eq_hit {W : World} {f : Nat} {p : BuilderId} {s : RawCache}
    {v : Val} (h : lookupArt W (invalidate_dependents s p) p = .hit v) :
    getMutFuel W f p s = (.ok v, invalidate_dependents s p) := by
  simp only [getMutFuel, lookupMutStage]
  rw [h]

theorem getMut_eq_bad {W : World} {f : Nat} {p : BuilderId} {s : RawCache}
    (h : lookupArt W (invalidate_dependents s p) p = .bad) :
    getMutFuel W f p s = (.abort, invalidate_dependents s p) := by
  simp only [getMutFuel, lookupMutStage]
  rw [h]

theorem getMut_eq_miss_zero {W : World} {p : BuilderId} {s : RawCache}
    (h : lookupArt W (invalidate_dependents s p) p = .miss) :
    getMutFuel W 0 p s = (.fuel, invalidate_dependents s p) := by
  simp only [getMutFuel, lookupMutStage]
  rw [h]

theorem getMut_eq_miss {W : World} {f : Nat} {p : BuilderId} {s : RawCache}
    (h : lookupArt W (invalidate_dependents s p) p = .miss) :
    getMutFuel W (f + 1) p s =
      buildStep W (getFuel W f) p (invalidate_dependents s p) := by
  simp only [getMutFuel, lookupMutStage]
  rw [h]

theorem tagInv_new (W : World) : TagInv W RawCache.new := by
  constructor
  · intro q c hc
    simp [RawCache.new, find?] at hc
  · intro q d hd
    simp [RawCache.new, find?] at hd

theorem tagInv_invalidate {W : World} {s : RawCache} (h : TagInv W s)
    (p : BuilderId) : TagInv W (invalidate s p) :=
  tagInv_of_eq (cleanup_art _) (cleanup_dyn _)
    (tagInv_invErase (invalidate_any_invErase s p) h)

theorem tagInv_getMut {W : World} {s : RawCache} (h : TagInv W s)
    (f : Nat) (p : BuilderId) :
    TagInv W ((getMutFuel W f p s)).2 ∧ (getMutFuel W f p s).1 ≠ .abort := by
  have h1 : TagInv W (invalidate_dependents s p) :=
    tagInv_invErase (invDeps_invErase s p) h
  cases hc : lookupArt W (invalidate_dependents s p) p with
  | hit v => rw [getMut_eq_hit hc]; exact ⟨h1, by simp⟩
  | bad => exact absurd hc (lookupArt_no_bad h1 p)
  | miss =>
      cases f with
      | zero => rw [getMut_eq_miss_zero hc]; exact ⟨h1, by simp⟩
      | succ f =>
          rw [getMut_eq_miss hc]
          exact buildStep_tag (fun d t ht => getFuel_tag W f d t ht) p h1

theorem tagInv_dyn_state {W : World} {s : RawCache} (h : TagInv W s)
    (p : BuilderId) :
    TagInv W ((dyn_state W s p)).2 ∧ (dyn_state W s p).1 ≠ .abort :=
  ensure_tag h p

theorem tagInv_dyn_state_mut {W : World} {s : RawCache} (h : TagInv W s)
    (p : BuilderId) :
    TagInv W ((dyn_state_mut W s p)).2 ∧ (dyn_state_mut W s p).1 ≠ .abort :=
  ensure_tag (tagInv_invalidate h p) p

theorem tagInv_set_dyn_state {W : World} {s : RawCache} (h : TagInv W s)
    (p : BuilderId) (v : Val) : TagInv W (set_dyn_state W s p v) :=
  tagInv_insert_dyn (tagInv_invalidate h p) p v

theorem get_dyn_state_no_abort {W : World} {s : RawCache} (h : TagInv W s)
    (p : BuilderId) : get_dyn_state W s p ≠ .abort := by
  unfold get_dyn_state
  cases hd : find? s.dyn_states p with
  | none => simp
  | some d => simp [h.2 p d hd]

theorem tagInv_erase_each {W : World} {s : RawCache} (h : TagInv W s)
    (p : BuilderId) :
    TagInv W { s with
      known_builders := eraseKey s.known_builders p,
      artifacts := eraseKey s.artifacts p,
      dyn_states := eraseKey s.dyn_states p } := by
  constructor
  · intro q c hc
    simp only at hc
    rw [find?_eraseKey] at hc
    by_cases hq : q = p
    · rw [if_pos hq] at hc
      cases hc
    · rw [if_neg hq] at hc
      exact h.1 q c hc
  · intro q d hd
    simp only at hd
    rw [find?_eraseKey] at hd
    by_cases hq : q = p
    · rw [if_pos hq] at hd
      cases hd
    · rw [if_neg hq] at hd
      exact h.2 q d hd

theorem tagInv_purge {W : World} {s : RawCache} (h : TagInv W s)
    (p : BuilderId) : TagInv W (purge s p) :=
  tagInv_invalidate (tagInv_erase_each h p) p

theorem tagInv_clear_artifacts {W : World} {s : RawCache} (h : TagInv W s) :
    TagInv W (clear_artifacts s) := by
  refine tagInv_of_eq (cleanup_art _) (cleanup_dyn _) ?_
  constructor
  · intro q c hc
    simp [find?] at hc
  · intro q d hd
    exact h.2 q d hd

theorem tagInv_gcStep {W : World} {s : RawCache} (h : TagInv W s)
    (bid : BuilderId) : TagInv W (gcStep s bid) := by
  have h1 : TagInv W (invalidate_any s bid) :=
    tagInv_invErase (invalidate_any_invErase s bid) h
  constructor
  · intro q c hc
    exact h1.1 q c hc
  · intro q d hd
    simp only [gcStep] at hd
    rw [find?_eraseKey] at hd
    by_cases hq : q = bid
    · rw [if_pos hq] at hd
      cases hd
    · rw [if_neg hq] at hd
      exact h1.2 q d hd

theorem tagInv_gc {W : World} {s : RawCache} (h : TagInv W s)
    (alive : BuilderId → Bool) : TagInv W (garbage_collection alive s) := by
  unfold garbage_collection
  generalize ((s.known_builders.filter
    (fun kv => (upgrade_from_weak alive kv.2).isNone)).map (fun kv => kv.1)) = l
  induction l generalizing s with
  | nil => exact h
  | cons b rest ih => exact ih (tagInv_gcStep h b)

theorem weakInv_new : WeakInv RawCache.new := by
  intro kv hkv
  simp [RawCache.new] at hkv

theorem weakInv_cleanup {s : RawCache} (h : WeakInv s) :
    WeakInv (cleanup_unused_weak_refs s) := by
  refine weakInv_sub (fun kv hkv => ?_) h
  exact (List.mem_filter.1 hkv).1

theorem weakInv_invalidate {s : RawCache} (h : WeakInv s) (p : BuilderId) :
    WeakInv (invalidate s p) :=
  weakInv_cleanup (weakInv_invErase (invalidate_any_invErase s p) h)

theorem weakInv_getMut {s : RawCache} {W : World} (h : WeakInv s)
    (f : Nat) (p : BuilderId) : WeakInv ((getMutFuel W f p s)).2 := by
  have h1 : WeakInv (invalidate_dependents s p) :=
    weakInv_invErase (invDeps_invErase s p) h
  cases hc : lookupArt W (invalidate_dependents s p) p with
  | hit v => rw [getMut_eq_hit hc]; exact h1
  | bad => rw [getMut_eq_bad hc]; exact h1
  | miss =>
      cases f with
      | zero => rw [getMut_eq_miss_zero hc]; exact h1
      | succ f =>
          rw [getMut_eq_miss hc]
          exact buildStep_weak (fun d t ht => getFuel_weak W f d t ht) p h1

theorem weakInv_dyn_state {s : RawCache} {W : World} (h : WeakInv s)
    (p : BuilderId) : WeakInv ((dyn_state W s p)).2 :=
  weakInv_eq (ensure_known W s p) h

theorem weakInv_dyn_state_mut {s : RawCache} {W : World} (h : WeakInv s)
    (p : BuilderId) : WeakInv ((dyn_state_mut W s p)).2 :=
  weakInv_eq (ensure_known W (invalidate s p) p) (weakInv_invalidate h p)

theorem weakInv_set_dyn_state {s : RawCache} {W : World} (h : WeakInv s)
    (p : BuilderId) (v : Val) : WeakInv (set_dyn_state W s p v) := by
  refine weakInv_eq ?_ (weakInv_invalidate h p)
  rfl

theorem weakInv_purge {s : RawCache} (h : WeakInv s) (p : BuilderId) :
    WeakInv (purge s p) := by
  refine weakInv_invalidate ?_ p
  refine weakInv_sub (fun kv hkv => ?_) h
  exact (List.mem_filter.1 hkv).1

theorem weakInv_clear_artifacts {s : RawCache} (h : WeakInv s) :
    WeakInv (clear_artifacts s) := by
  refine weakInv_sub (fun kv hkv => ?_) h
  exact (List.mem_filter.1 hkv).1

theorem weakInv_gcStep {s : RawCache} (h : WeakInv s) (bid : BuilderId) :
    WeakInv (gcStep s bid) := by
  have h1 : WeakInv (invalidate_any s bid) :=
    weakInv_invErase (invalidate_any_invErase s bid) h
  refine weakInv_sub (fun kv hkv => ?_) h1
  exact (List.mem_filter.1 hkv).1

theorem weakInv_gc {s : RawCache} (h : WeakInv s)
    (alive : BuilderId → Bool) : WeakInv (garbage_collection alive s) := by
  unfold garbage_collection
  generalize ((s.known_builders.filter
    (fun kv => (upgrade_from_weak alive kv.2).isNone)).map (fun kv => kv.1)) = l
  induction l generalizing s with
  | nil => exact h
  | cons b rest ih => exact ih (weakInv_gcStep h b)

/-! ## The rank and edge invariants per operation -/

theorem ranked_invErase {s t : RawCache} {rank : BuilderId → Nat}
    (h1 : InvErase s t) (hr : Ranked s.dependents rank) :
    Ranked t.dependents rank :=
  hr.mono_rank (findSet_sub_of_pointwise h1.2.2.2.2.1)

theorem edgeInv_new : EdgeInvariant RawCache.new := by
  intro u l c hbw
  simp [RawCache.new, find?] at hbw

theorem ranked_new (rank : BuilderId → Nat) :
    Ranked (RawCache.new).dependents rank := by
  intro p u hmem
  simp [RawCache.new, findSet, find?] at hmem

theorem edgeInv_invalidate {s : RawCache} {rank : BuilderId → Nat}
    (hr : Ranked s.dependents rank) (h : EdgeInvariant s) (p : BuilderId) :
    EdgeInvariant (invalidate s p) :=
  edgeInv_transport rfl rfl (fun _ _ hx => hx) (edgeInv_invAny hr h p)

theorem ranked_invalidate {s : RawCache} {rank : BuilderId → Nat}
    (hr : Ranked s.dependents rank) (p : BuilderId) :
    Ranked (invalidate s p).dependents rank := by
  show Ranked (invalidate_any s p).dependents rank
  exact ranked_invErase (invalidate_any_invErase s p) hr

theorem edgeInv_erase_art {s : RawCache} (h : EdgeInvariant s)
    (p : BuilderId) :
    EdgeInvariant { s with
      known_builders := eraseKey s.known_builders p,
      artifacts := eraseKey s.artifacts p,
      dyn_states := eraseKey s.dyn_states p } := by
  intro u l c hbw hart q hq
  simp only at hbw hart
  rw [find?_eraseKey] at hart
  by_cases hup : u = p
  · rw [if_pos hup] at hart
    cases hart
  · rw [if_neg hup] at hart
    exact h u l c hbw hart q hq

theorem edgeInv_purge {s : RawCache} {rank : BuilderId → Nat}
    (hr : Ranked s.dependents rank) (h : EdgeInvariant s) (p : BuilderId) :
    EdgeInvariant (purge s p) := by
  have hr1 : Ranked ({ s with
      known_builders := eraseKey s.known_builders p,
      artifacts := eraseKey s.artifacts p,
      dyn_states := eraseKey s.dyn_states p }).dependents rank := hr
  exact edgeInv_invalidate hr1 (edgeInv_erase_art h p) p

theorem ranked_purge {s : RawCache} {rank : BuilderId → Nat}
    (hr : Ranked s.dependents rank) (p : BuilderId) :
    Ranked (purge s p).dependents rank := by
  have hr1 : Ranked ({ s with
      known_builders := eraseKey s.known_builders p,
      artifacts := eraseKey s.artifacts p,
      dyn_states := eraseKey s.dyn_states p }).dependents rank := hr
  exact ranked_invalidate hr1 p

theorem edgeInv_clear_artifacts (s : RawCache) :
    EdgeInvariant (clear_artifacts s) := by
  intro u l c hbw hart
  have h0 : (clear_artifacts s).artifacts = [] := rfl
  rw [h0] at hart
  simp [find?] at hart

theorem ranked_clear_artifacts (s : RawCache) (rank : BuilderId → Nat) :
    Ranked (clear_artifacts s).dependents rank := by
  intro p u hmem
  have h0 : (clear_artifacts s).dependents = [] := rfl
  rw [h0] at hmem
  simp [findSet, find?] at hmem

theorem edgeInv_ensure {W : World} {s : RawCache} (h : EdgeInvariant s)
    (p : BuilderId) : EdgeInvariant ((ensure_dyn_state W s p)).2 := by
  refine edgeInv_transport (ensure_ghost W s p) (ensure_art W s p) ?_ h
  intro q x hx
  rw [ensure_dep]
  exact hx

theorem ranked_ensure {W : World} {s : RawCache} {rank : BuilderId → Nat}
    (hr : Ranked s.dependents rank) (p : BuilderId) :
    Ranked ((ensure_dyn_state W s p)).2.dependents rank := by
  rw [ensure_dep]
  exact hr

theorem edgeInv_set_dyn_state {W : World} {s : RawCache}
    {rank : BuilderId → Nat} (hr : Ranked s.dependents rank)
    (h : EdgeInvariant s) (p : BuilderId) (v : Val) :
    EdgeInvariant (set_dyn_state W s p v) := by
  refine edgeInv_transport rfl rfl ?_ (edgeInv_invalidate hr h p)
  exact fun q x hx => hx

theorem ranked_set_dyn_state {W : World} {s : RawCache}
    {rank : BuilderId → Nat} (hr : Ranked s.dependents rank)
    (p : BuilderId) (v : Val) :
    Ranked (set_dyn_state W s p v).dependents rank :=
  ranked_invalidate hr p

theorem edgeInv_gcStep {s : RawCache} {rank : BuilderId → Nat}
    (hr : Ranked s.dependents rank) (h : EdgeInvariant s) (bid : BuilderId) :
    EdgeInvariant (gcStep s bid) := by
  refine edgeInv_transport rfl rfl ?_ (edgeInv_invAny hr h bid)
  exact fun q x hx => hx

theorem ranked_gcStep {s : RawCache} {rank : BuilderId → Nat}
    (hr : Ranked s.dependents rank) (bid : BuilderId) :
    Ranked (gcStep s bid).dependents rank := by
  show Ranked (invalidate_any s bid).dependents rank
  exact ranked_invErase (invalidate_any_invErase s bid) hr

theorem edgeInv_gc {s : RawCache} {rank : BuilderId → Nat}
    (hr : Ranked s.dependents rank) (h : EdgeInvariant s)
    (alive : BuilderId → Bool) :
    EdgeInvariant (garbage_collection alive s) := by
  unfold garbage_collection
  generalize ((s.known_builders.filter
    (fun kv => (upgrade_from_weak alive kv.2).isNone)).map (fun kv => kv.1)) = l
  induction l generalizing s with
  | nil => exact h
  | cons b rest ih => exact ih (ranked_gcStep hr b) (edgeInv_gcStep hr h b)

theorem ranked_gc {s : RawCache} {rank : BuilderId → Nat}
    (hr : Ranked s.dependents rank) (alive : BuilderId → Bool) :
    Ranked (garbage_collection alive s).dependents rank := by
  unfold garbage_collection
  generalize ((s.known_builders.filter
    (fun kv => (upgrade_from_weak alive kv.2).isNone)).map (fun kv => kv.1)) = l
  induction l generalizing s with
  | nil => exact hr
  | cons b rest ih => exact ih (ranked_gcStep hr b)

theorem ranked_getMut {W : World} {s : RawCache} {rank : BuilderId → Nat}
    (hW : WOrder W rank) (hr : Ranked s.dependents rank)
    (f : Nat) (p : BuilderId) :
    Ranked ((getMutFuel W f p s)).2.dependents rank := by
  have h1 : Ranked (invalidate_dependents s p).dependents rank :=
    ranked_invErase (invDeps_invErase s p) hr
  cases hc : lookupArt W (invalidate_dependents s p) p with
  | hit v => rw [getMut_eq_hit hc]; exact h1
  | bad => rw [getMut_eq_bad hc]; exact h1
  | miss =>
      cases f with
      | zero => rw [getMut_eq_miss_zero hc]; exact h1
      | succ f =>
          rw [getMut_eq_miss hc]
          exact buildStep_ranked hW (fun d t ht => getFuel_ranked hW f d t ht)
            p h1

theorem edgeInv_getMut {W : World} {s : RawCache} {rank : BuilderId → Nat}
    (_hW : WOrder W rank) (hr : Ranked s.dependents rank)
    (h : EdgeInvariant s) (f : Nat) (p : BuilderId) :
    EdgeInvariant ((getMutFuel W f p s)).2 := by
  have h1 : EdgeInvariant (invalidate_dependents s p) :=
    edgeInv_invDeps hr h p
  cases hc : lookupArt W (invalidate_dependents s p) p with
  | hit v => rw [getMut_eq_hit hc]; exact h1
  | bad => rw [getMut_eq_bad hc]; exact h1
  | miss =>
      cases f with
      | zero => rw [getMut_eq_miss_zero hc]; exact h1
      | succ f =>
          rw [getMut_eq_miss hc]
          exact buildStep_edgeinv (fun d t => getFuel_grow W f d t)
            (fun d t ht => getFuel_edgeinv W f d t ht) p h1

/-! ## Public operations as a transition system -/

/-- One public `RawCache` operation, with arbitrary arguments (the fuel of
the `get` family is arbitrary too, so fuel-exhausted partial builds are also
covered).  `get_dyn_state` does not change the state and needs no step. -/
inductive Step (W : World) (s : RawCache) : RawCache → Prop where
  | get (f : Nat) (p : BuilderId) : Step W s ((getFuel W f p s)).2
  | get_ref (f : Nat) (p : BuilderId) : Step W s ((getRefFuel W f p s)).2
  | get_cloned (f : Nat) (p : BuilderId) :
      Step W s ((getClonedFuel W f p s)).2
  | get_mut (f : Nat) (p : BuilderId) : Step W s ((getMutFuel W f p s)).2
  | dyn_state_op (p : BuilderId) : Step W s ((dyn_state W s p)).2
  | dyn_state_mut_op (p : BuilderId) : Step W s ((dyn_state_mut W s p)).2
  | set_dyn_state_op (p : BuilderId) (v : Val) :
      Step W s (set_dyn_state W s p v)
  | invalidate_op (p : BuilderId) : Step W s (invalidate s p)
  | purge_op (p : BuilderId) : Step W s (purge s p)
  | clear_artifacts_op : Step W s (clear_artifacts s)
  | clear_all_op : Step W s (clear_all s)
  | gc_op (alive : BuilderId → Bool) : Step W s (garbage_collection alive s)

/-- States reachable from the empty cache by public operations. -/
inductive Reachable (W : World) : RawCache → Prop where
  | init : Reachable W RawCache.new
  | step {s t : RawCache} (h : Reachable W s) (hs : Step W s t) :
      Reachable W t

theorem step_tagInv {W : World} {s t : RawCache} (hs : Step W s t)
    (h : TagInv W s) : TagInv W t := by
  cases hs with
  | get f p => exact (getFuel_tag W f p s h).1
  | get_ref f p =>
      rw [getRef_eq]
      exact (getFuel_tag W f p s h).1
  | get_cloned f p =>
      rw [getCloned_eq]
      exact (getFuel_tag W f p s h).1
  | get_mut f p => exact (tagInv_getMut h f p).1
  | dyn_state_op p => exact (tagInv_dyn_state h p).1
  | dyn_state_mut_op p => exact (tagInv_dyn_state_mut h p).1
  | set_dyn_state_op p v => exact tagInv_set_dyn_state h p v
  | invalidate_op p => exact tagInv_invalidate h p
  | purge_op p => exact tagInv_purge h p
  | clear_artifacts_op => exact tagInv_clear_artifacts h
  | clear_all_op => exact tagInv_new W
  | gc_op alive => exact tagInv_gc h alive

theorem reachable_tagInv {W : World} {s : RawCache} (h : Reachable W s) :
    TagInv W s := by
  induction h with
  | init => exact tagInv_new W
  | step _ hs ih => exact step_tagInv hs ih

theorem step_weakInv {W : World} {s t : RawCache} (hs : Step W s t)
    (h : WeakInv s) : WeakInv t := by
  cases hs with
  | get f p => exact getFuel_weak W f p s h
  | get_ref f p =>
      rw [getRef_eq]
      exact getFuel_weak W f p s h
  | get_cloned f p =>
      rw [getCloned_eq]
      exact getFuel_weak W f p s h
  | get_mut f p => exact weakInv_getMut h f p
  | dyn_state_op p => exact weakInv_dyn_state h p
  | dyn_state_mut_op p => exact weakInv_dyn_state_mut h p
  | set_dyn_state_op p v => exact weakInv_set_dyn_state h p v
  | invalidate_op p => exact weakInv_invalidate h p
  | purge_op p => exact weakInv_purge h p
  | clear_artifacts_op => exact weakInv_clear_artifacts h
  | clear_all_op => exact weakInv_new
  | gc_op alive => exact weakInv_gc h alive

theorem reachable_weakInv {W : World} {s : RawCache} (h : Reachable W s) :
    WeakInv s := by
  induction h with
  | init => exact weakInv_new
  | step _ hs ih => exact step_weakInv hs ih

theorem step_edges {W : World} {rank : BuilderId → Nat} (hW : WOrder W rank)
    {s t : RawCache} (hs : Step W s t)
    (h : Ranked s.dependents rank ∧ EdgeInvariant s) :
    Ranked t.dependents rank ∧ EdgeInvariant t := by
  obtain ⟨hr, he⟩ := h
  cases hs with
  | get f p =>
      exact ⟨getFuel_ranked hW f p s hr, getFuel_edgeinv W f p s he⟩
  | get_ref f p =>
      rw [getRef_eq]
      exact ⟨getFuel_ranked hW f p s hr, getFuel_edgeinv W f p s he⟩
  | get_cloned f p =>
      rw [getCloned_eq]
      exact ⟨getFuel_ranked hW f p s hr, getFuel_edgeinv W f p s he⟩
  | get_mut f p =>
      exact ⟨ranked_getMut hW hr f p, edgeInv_getMut hW hr he f p⟩
  | dyn_state_op p => exact ⟨ranked_ensure hr p, edgeInv_ensure he p⟩
  | dyn_state_mut_op p =>
      exact ⟨ranked_ensure (ranked_invalidate hr p) p,
        edgeInv_ensure (edgeInv_invalidate hr he p) p⟩
  | set_dyn_state_op p v =>
      exact ⟨ranked_set_dyn_state hr p v, edgeInv_set_dyn_state hr he p v⟩
  | invalidate_op p =>
      exact ⟨ranked_invalidate hr p, edgeInv_invalidate hr he p⟩
  | purge_op p => exact ⟨ranked_purge hr p, edgeInv_purge hr he p⟩
  | clear_artifacts_op =>
      exact ⟨ranked_clear_artifacts s rank, edgeInv_clear_artifacts s⟩
  | clear_all_op => exact ⟨ranked_new rank, edgeInv_new⟩
  | gc_op alive => exact ⟨ranked_gc hr alive, edgeInv_gc hr he alive⟩

theorem reachable_edges {W : World} {rank : BuilderId → Nat}
    (hW : WOrder W rank) {s : RawCache} (h : Reachable W s) :
    Ranked s.dependents rank ∧ EdgeInvariant s := by
  induction h with
  | init => exact ⟨ranked_new rank, edgeInv_new⟩
  | step _ hs ih => exact step_edges hW hs ih

/-! ## Concrete worlds for evaluation -/

/-- A world of independent leaf builders: no dependencies, the artifact is
the dyn state. -/
def Wleaf : World := fun _ =>
  { artTag := 0, dynTag := 0, initDyn := 0,
    deps := fun _ => [], buildFn := fun st _ => .ok st }

/-- A world where builder 1 resolves builder 0 and then fails with error 7,
builder 2 fails with error 9 without resolving anything, and everything
else is a successful leaf. -/
def Werr : World := fun i =>
  if i = 1 then
    { artTag := 11, dynTag := 21, initDyn := 0,
      deps := fun _ => [0], buildFn := fun _ _ => .error 7 }
  else if i = 2 then
    { artTag := 12, dynTag := 22, initDyn := 0,
      deps := fun _ => [], buildFn := fun _ _ => .error 9 }
  else
    { artTag := 10, dynTag := 20, initDyn := 0,
      deps := fun _ => [], buildFn := fun _ _ => .ok 5 }

theorem wOrder_Werr : WOrder Werr (fun i => i) := by
  intro p st d hd
  unfold Werr at hd
  by_cases h1 : p = 1
  · simp only [h1, if_pos rfl] at hd
    simp at hd
    subst hd
    subst h1
    exact Nat.zero_lt_one
  · rw [if_neg h1] at hd
    by_cases h2 : p = 2
    · rw [if_pos h2] at hd
      simp at hd
    · rw [if_neg h2] at hd
      simp at hd

/-- A world where builder 1 resolves builder 0 exactly when its dyn state
is 0, and builder 0 is a leaf. -/
def Wstale : World := fun i =>
  if i = 1 then
    { artTag := 11, dynTag := 21, initDyn := 0,
      deps := fun st => if st = 0 then [0] else [],
      buildFn := fun _ _ => .ok 3 }
  else
    { artTag := 10, dynTag := 20, initDyn := 0,
      deps := fun _ => [], buildFn := fun _ _ => .ok 5 }

theorem wOrder_Wstale : WOrder Wstale (fun i => i) := by
  intro p st d hd
  unfold Wstale at hd
  by_cases h1 : p = 1
  · simp only [h1, if_pos rfl] at hd
    by_cases hst : st = 0
    · simp [hst] at hd
      subst hd
      subst h1
      exact Nat.zero_lt_one
    · simp [hst] at hd
  · rw [if_neg h1] at hd
    simp at hd

/-! ## The claims -/

/-- C2: the claim states that between any two public calls, every id that is
a key of `artifacts` or `dyn_states` has an entry in `known_builders`, and
that every public operation preserves this.  The code breaks it:
`RawCache::dyn_state` (and `dyn_state_mut`) call `ensure_dyn_state` without
`make_builder_known`, so a single public `dyn_state` call on a fresh cache
creates `dyn_states[0]` with no `known_builders[0]` entry — contradicting
the `known_builders` field's own documentation ("all known builder ids that
are those used in `cache` and/or dyn_state"). -/
theorem c2_dyn_state_skips_registration :
    (find? ((dyn_state Wleaf RawCache.new 0)).2.dyn_states 0).isSome = true ∧
    find? ((dyn_state Wleaf RawCache.new 0)).2.known_builders 0 = none := by
  decide

/-- C3: for every sequence of public operations, stored artifacts and dyn
states always carry the type tag of the builder owning their id, so every
downcast in the lookup / get / ensure_dyn_state paths succeeds: no public
operation can return the `abort` outcome that models the `expect` panic
(and in the model a mismatch is an abort, never an error value). -/
theorem c3_downcasts_never_fail {W : World} {s : RawCache}
    (h : Reachable W s) :
    TagInv W s ∧
    (∀ f p, (getFuel W f p s).1 ≠ .abort) ∧
    (∀ f p, (getRefFuel W f p s).1 ≠ .abort) ∧
    (∀ f p, (getClonedFuel W f p s).1 ≠ .abort) ∧
    (∀ f p, (getMutFuel W f p s).1 ≠ .abort) ∧
    (∀ p, (dyn_state W s p).1 ≠ .abort) ∧
    (∀ p, (dyn_state_mut W s p).1 ≠ .abort) ∧
    (∀ p, get_dyn_state W s p ≠ .abort) := by
  have ht := reachable_tagInv h
  refine ⟨ht, ?_, ?_, ?_, ?_, ?_, ?_, ?_⟩
  · exact fun f p => (getFuel_tag W f p s ht).2
  · intro f p
    rw [getRef_eq]
    exact (getFuel_tag W f p s ht).2
  · intro f p
    rw [getCloned_eq]
    exact (getFuel_tag W f p s ht).2
  · exact fun f p => (tagInv_getMut ht f p).2
  · exact fun p => (tagInv_dyn_state ht p).2
  · exact fun p => (tagInv_dyn_state_mut ht p).2
  · exact fun p => get_dyn_state_no_abort ht p

theorem c3_witness :
    TagInv Wleaf RawCache.new ∧
    (getFuel Wleaf 3 0 RawCache.new).1 ≠ .abort ∧
    (getMutFuel Wleaf 3 0 RawCache.new).1 ≠ .abort :=
  ⟨(c3_downcasts_never_fail (Reachable.init)).1,
   (c3_downcasts_never_fail (Reachable.init)).2.1 3 0,
   (c3_downcasts_never_fail (Reachable.init)).2.2.2.2.1 3 0⟩

/-- C5: after `invalidate p`, neither `p`'s artifact nor the artifact of any
builder that transitively depended on `p` through the recorded dependent
edges remains (stated over rank-ordered edge sets, the state-level shadow of
the crate's acyclic-dependency requirement). -/
theorem c5_invalidate_cascade_complete (s : RawCache) (p : BuilderId)
    (rank : BuilderId → Nat) (hr : Ranked s.dependents rank) :
    ∀ x, DepReach s.dependents p x →
      find? ((invalidate s p)).artifacts x = none := by
  intro x hx
  show find? ((invalidate_any s p)).artifacts x = none
  exact invalidate_any_kills s p rank hr x hx

theorem c5_witness :
    find? ((invalidate
      { artifacts := [(0, ⟨0, 1⟩), (1, ⟨0, 2⟩)], dyn_states := [],
        dependents := [(0, [1])], known_builders := [], built_with := [] }
      0)).artifacts 1 = none := by
  refine c5_invalidate_cascade_complete _ 0 (fun i => i) ?_ 1 ?_
  · intro p u hmem
    have hmem2 : u ∈ (if (0 : BuilderId) = p then some [1] else
        none).getD ([] : List BuilderId) := hmem
    by_cases hp : (0 : BuilderId) = p
    · rw [if_pos hp] at hmem2
      simp at hmem2
      subst hmem2
      rw [← hp]
      exact Nat.zero_lt_one
    · rw [if_neg hp] at hmem2
      simp at hmem2
  · exact DepReach.step (by decide) (DepReach.refl 1)

/-- C6: invalidating `p` leaves untouched the stored artifact entry of every
builder `q` that does not transitively depend on `p` according to the
recorded dependent edges (pointer equality of the stored can is modelled as
equality of the stored entry). -/
theorem c6_invalidate_confined (s : RawCache) (p q : BuilderId)
    (hq : ¬ DepReach s.dependents p q) :
    find? ((invalidate s p)).artifacts q = find? s.artifacts q := by
  show find? ((invalidate_any s p)).artifacts q = find? s.artifacts q
  exact invalidate_any_confined s p q hq

theorem c6_witness :
    find? ((invalidate
      { artifacts := [(0, ⟨0, 1⟩), (1, ⟨0, 2⟩), (2, ⟨0, 3⟩)],
        dyn_states := [], dependents := [(0, [1])], known_builders := [],
        built_with := [] } 0)).artifacts 2 = some ⟨0, 3⟩ := by
  refine (c6_invalidate_confined _ 0 2 ?_).trans (by decide)
  intro h
  cases h with
  | step hmem h2 =>
      rename_i u
      have h1 : u ∈ ([1] : List BuilderId) := hmem
      simp at h1
      subst h1
      cases h2 with
      | step hmem2 h3 =>
          rename_i w
          have h4 : w ∈ ([] : List BuilderId) := hmem2
          simp at h4

/-- C7 counterexample: `dependents` retains stale entries.  In `Wstale`,
builder 1 resolves 0 on its first build; after `set_dyn_state 1 1`
invalidates builder 1 and its next (successful, currently cached) build
resolves nothing, `dependents[0]` still contains 1 — so `dependents[0]` is
not the set of ids whose most recent build resolved 0, and contains an id
whose latest build did not resolve 0. -/
theorem c7_counterexample :
    1 ∈ findSet ((getFuel Wstale 9 1
      (set_dyn_state Wstale ((getFuel Wstale 9 1 RawCache.new)).2 1
        1))).2.dependents 0 ∧
    find? ((getFuel Wstale 9 1
      (set_dyn_state Wstale ((getFuel Wstale 9 1 RawCache.new)).2 1
        1))).2.built_with 1 = some [] ∧
    (find? ((getFuel Wstale 9 1
      (set_dyn_state Wstale ((getFuel Wstale 9 1 RawCache.new)).2 1
        1))).2.artifacts 1).isSome = true := by
  decide

/-- C7 amended: between public calls, `dependents[p]` contains every id `u`
whose currently cached artifact was produced by a build that resolved `p`
(the ghost field `built_with u` records what that build resolved); it may
additionally retain stale ids whose latest build did not resolve `p`, which
are purged only when `p` itself is invalidated or the tables are cleared. -/
theorem c7_dependents_cover_current_builds {W : World}
    {rank : BuilderId → Nat} (hW : WOrder W rank) {s : RawCache}
    (h : Reachable W s) :
    ∀ u l c, find? s.built_with u = some l → find? s.artifacts u = some c →
      ∀ p ∈ l, u ∈ findSet s.dependents p :=
  (reachable_edges hW h).2

theorem c7_witness :
    1 ∈ findSet ((getFuel Wstale 9 1 RawCache.new)).2.dependents 0 :=
  c7_dependents_cover_current_builds wOrder_Wstale
    (Reachable.step Reachable.init (Step.get 9 1)) 1 [0] ⟨11, 3⟩
    (by decide) (by decide) 0 (by decide)

/-- C4: `get` is a memoizing lookup.  On a hit it returns the cached value
and leaves the state untouched, whatever the builder's build function would
do; on a miss it is exactly `RawCache::build` — register in
`known_builders`, ensure the dyn state, run the builder with a resolver
bound to it — and on success the artifact is inserted (replacing any prior
entry) and the fresh value returned. -/
theorem c4_get_memoizing {W : World} :
    (∀ f p s c, find? s.artifacts p = some c → c.tag = (W p).artTag →
        getFuel W f p s = (.ok c.val, s)) ∧
    (∀ f p s, find? s.artifacts p = none →
        getFuel W (f + 1) p s = buildStep W (getFuel W f) p s) ∧
    (∀ f p s v s2, find? s.artifacts p = none →
        getFuel W f p s = (.ok v, s2) →
        find? s2.artifacts p = some ⟨(W p).artTag, v⟩ ∧
        (find? s2.known_builders p).isSome = true ∧
        (find? s2.dyn_states p).isSome = true) := by
  refine ⟨fun f p s c hc ht => getFuel_hit W f p s hc ht,
    fun f p s hc => getFuel_miss W f p s hc, ?_⟩
  intro f p s v s2 hc hres
  cases f with
  | zero =>
      rw [getFuel_zero, getBase_eq_miss (lookupArt_miss hc)] at hres
      cases hres
  | succ f =>
      rw [getFuel_miss W f p s hc] at hres
      have hart := buildStep_ok_art hres
      have hknown := @buildStep_known_self W (getFuel W f)
        (fun d t => getFuel_grow W f d t) p s
      have hdyn := @buildStep_dyn_self W (getFuel W f)
        (fun d t => getFuel_grow W f d t) p s
      rw [hres] at hknown hdyn
      exact ⟨hart, hknown, hdyn⟩

theorem c4_witness :
    getFuel Wleaf 1 0
      { artifacts := [(0, ⟨0, 7⟩)], dyn_states := [], dependents := [],
        known_builders := [], built_with := [] } =
      (.ok 7,
        { artifacts := [(0, ⟨0, 7⟩)], dyn_states := [], dependents := [],
          known_builders := [], built_with := [] }) ∧
    find? ((getFuel Wleaf 1 0 RawCache.new)).2.artifacts 0 =
      some ⟨(Wleaf 0).artTag, 0⟩ ∧
    (find? ((getFuel Wleaf 1 0 RawCache.new)).2.known_builders 0).isSome
      = true ∧
    (find? ((getFuel Wleaf 1 0 RawCache.new)).2.dyn_states 0).isSome
      = true := by
  refine ⟨(c4_get_memoizing (W := Wleaf)).1 1 0 _ ⟨0, 7⟩ (by decide)
    (by decide), ?_⟩
  have h := (c4_get_memoizing (W := Wleaf)).2.2 1 0 RawCache.new 0
    ((getFuel Wleaf 1 0 RawCache.new)).2 (by decide) (by decide)
  exact h

theorem lookupArt_miss_inv {W : World} {s : RawCache} {p : BuilderId}
    (h : lookupArt W s p = .miss) : find? s.artifacts p = none := by
  cases hc : find? s.artifacts p with
  | none => rfl
  | some c =>
      exfalso
      by_cases ht : c.tag = (W p).artTag
      · rw [lookupArt_hit hc ht] at h
        simp at h
      · have hb : lookupArt W s p = .bad := by
          unfold lookupArt
          rw [hc]
          simp [ht]
        rw [hb] at h
        simp at h

/-- The state produced by registering a builder and creating its fresh
dynamic state: `make_builder_known` followed by the miss branch of
`ensure_dyn_state` (the two state effects `RawCache::build` performs before
resolving dependencies). -/
def registerAndInitDyn (W : World) (s : RawCache) (p : BuilderId) :
    RawCache :=
  ((ensure_dyn_state W (make_builder_known s p) p)).2

/-- C1 counterexample: in `Werr`, builder 1's build resolves builder 0 and
then fails.  The error is propagated, but the cache is not left in its
prior state modulo builder 1's registration and dyn state: the artifact of
the dependency 0 (and its registration, dyn state and dependency record)
was cached during the failed call, so the claim as stated is false. -/
theorem c1_counterexample :
    (getFuel Werr 9 1 RawCache.new).1 = .err 7 ∧
    find? ((getFuel Werr 9 1 RawCache.new)).2.artifacts 0 = some ⟨10, 5⟩ ∧
    find? RawCache.new.artifacts 0 = none := by
  decide

/-- C1 amended: when a build fails, the get family propagates the error, no
artifact is cached for the failing builder (its entry is absent before and
after), its `known_builders` registration and its dynamic state remain, and
the next `get` retries the build; `get_ref` and `get_cloned` behave exactly
as `get`, and `get_mut` additionally invalidates the dependents of the
promise before attempting the build.  The cache additionally retains the
artifacts, registrations, dyn states and dependency records produced while
resolving the failing builder's dependencies; for a builder that resolves
no dependencies and had no prior dyn state, the state after the failed call
is exactly the state before plus the registration and the freshly created
dynamic state. -/
theorem c1_failed_build_effects {W : World} {rank : BuilderId → Nat}
    (hW : WOrder W rank) :
    (∀ f p s e s2, getFuel W f p s = (.err e, s2) →
        find? s.artifacts p = none ∧
        find? s2.artifacts p = none ∧
        (find? s2.known_builders p).isSome = true ∧
        (find? s2.dyn_states p).isSome = true ∧
        (∀ f2, getFuel W (f2 + 1) p s2 = buildStep W (getFuel W f2) p s2)) ∧
    (∀ f p s, getRefFuel W f p s = getFuel W f p s ∧
        getClonedFuel W f p s = getFuel W f p s) ∧
    (∀ f p s e s2, getMutFuel W f p s = (.err e, s2) →
        find? s2.artifacts p = none) ∧
    (∀ f p s e, find? s.artifacts p = none → find? s.dyn_states p = none →
        (W p).deps (W p).initDyn = [] →
        (W p).buildFn (W p).initDyn [] = .error e →
        getFuel W (f + 1) p s =
          (.err e, registerAndInitDyn W s p)) := by
  refine ⟨?_, ?_, ?_, ?_⟩
  · intro f p s e s2 herr
    cases f with
    | zero =>
        rw [getFuel_zero] at herr
        cases hc : lookupArt W s p with
        | miss => rw [getBase_eq_miss hc] at herr; simp at herr
        | hit v => rw [getBase_eq_hit hc] at herr; simp at herr
        | bad => rw [getBase_eq_bad hc] at herr; simp at herr
    | succ f =>
        rw [getFuel_succ] at herr
        cases hc : lookupArt W s p with
        | hit v => rw [getStep_eq_hit hc] at herr; simp at herr
        | bad => rw [getStep_eq_bad hc] at herr; simp at herr
        | miss =>
            have hc0 : find? s.artifacts p = none := lookupArt_miss_inv hc
            rw [getStep_eq_miss hc] at herr
            have hfst : (buildStep W (getFuel W f) p s).1 = .err e := by
              rw [herr]
            have hsnd : (buildStep W (getFuel W f) p s).2 = s2 := by
              rw [herr]
            have hp_unchanged : find? s2.artifacts p = find? s.artifacts p := by
              by_contra hne
              have := buildStep_err_art hW
                (fun d t x hx => getFuel_artchg hW f d t x hx) p s hfst p
                (by rw [hsnd]; exact hne)
              exact lt_irrefl _ this
            have hknown := @buildStep_known_self W (getFuel W f)
              (fun d t => getFuel_grow W f d t) p s
            have hdyn := @buildStep_dyn_self W (getFuel W f)
              (fun d t => getFuel_grow W f d t) p s
            rw [hsnd] at hknown hdyn
            refine ⟨hc0, by rw [hp_unchanged, hc0], hknown, hdyn, ?_⟩
            intro f2
            exact getFuel_miss W f2 p s2 (by rw [hp_unchanged, hc0])
  · intro f p s
    constructor
    · rw [getRef_eq]
    · exact getCloned_eq W f p s
  · intro f p s e s2 herr
    cases hc : lookupArt W (invalidate_dependents s p) p with
    | hit v => rw [getMut_eq_hit hc] at herr; simp at herr
    | bad => rw [getMut_eq_bad hc] at herr; simp at herr
    | miss =>
        cases f with
        | zero => rw [getMut_eq_miss_zero hc] at herr; simp at herr
        | succ f =>
            rw [getMut_eq_miss hc] at herr
            have hc0 : find? ((invalidate_dependents s p)).artifacts p =
                none := lookupArt_miss_inv hc
            have hfst : (buildStep W (getFuel W f) p
                (invalidate_dependents s p)).1 = .err e := by
              rw [herr]
            have hsnd : (buildStep W (getFuel W f) p
                (invalidate_dependents s p)).2 = s2 := by
              rw [herr]
            have hp_unchanged : find? s2.artifacts p =
                find? ((invalidate_dependents s p)).artifacts p := by
              by_contra hne
              have := buildStep_err_art hW
                (fun d t x hx => getFuel_artchg hW f d t x hx) p
                (invalidate_dependents s p) hfst p (by rw [hsnd]; exact hne)
              exact lt_irrefl _ this
            rw [hp_unchanged, hc0]
  · intro f p s e hart hdyn hdeps hfn
    rw [getFuel_miss W f p s hart]
    have hdyn0 : find? ((make_builder_known s p)).dyn_states p = none := by
      rw [make_known_dyn]
      exact hdyn
    have hens : ensure_dyn_state W (make_builder_known s p) p =
        (.ok (W p).initDyn, registerAndInitDyn W s p) := by
      unfold registerAndInitDyn
      rw [ensure_eq_of_none W (make_builder_known s p) p hdyn0]
    have hres : resolveSteps (getFuel W f) p ((W p).deps (W p).initDyn)
        (registerAndInitDyn W s p) =
        (.ok [], registerAndInitDyn W s p) := by
      rw [hdeps]
      exact resolveSteps_nil _ _ _
    exact buildStep_build_err hens hres hfn

theorem c1_witness :
    getFuel Werr 1 2 RawCache.new =
      (.err 9, registerAndInitDyn Werr RawCache.new 2) :=
  (c1_failed_build_effects wOrder_Werr).2.2.2 0 2 RawCache.new 9 (by decide)
    (by decide) (by decide) (by rfl)

/-- C8: `get_mut p` first invalidates the dependents of `p`
(`lookup_mut` = `invalidate_dependents` then lookup): every recorded
dependent of `p` and everything transitively reachable from it along the
recorded dependent edges loses its artifact; `p`'s own artifact entry is
untouched by the invalidation, and when it is present (with the owner's
tag) `get_mut` returns exactly the stored value without building; only
when absent does it build. -/
theorem c8_get_mut_invalidates_dependents {W : World} {s : RawCache}
    {rank : BuilderId → Nat} (hr : Ranked s.dependents rank) (p : BuilderId) :
    (∀ f c, find? s.artifacts p = some c → c.tag = (W p).artTag →
        getMutFuel W f p s = (.ok c.val, invalidate_dependents s p)) ∧
    (find? ((invalidate_dependents s p)).artifacts p =
        find? s.artifacts p) ∧
    (∀ u, u ∈ findSet s.dependents p → ∀ x, DepReach s.dependents u x →
        find? ((invalidate_dependents s p)).artifacts x = none) ∧
    (∀ f, find? s.artifacts p = none →
        getMutFuel W (f + 1) p s =
          buildStep W (getFuel W f) p (invalidate_dependents s p)) := by
  refine ⟨?_, invDeps_art_self s p rank hr, ?_, ?_⟩
  · intro f c hc ht
    have h1 : find? ((invalidate_dependents s p)).artifacts p = some c := by
      rw [invDeps_art_self s p rank hr]
      exact hc
    exact getMut_eq_hit (lookupArt_hit h1 ht)
  · intro u hu x hx
    exact invDeps_kills s p rank hr u x hu hx
  · intro f hc
    have h1 : find? ((invalidate_dependents s p)).artifacts p = none := by
      rw [invDeps_art_self s p rank hr]
      exact hc
    exact getMut_eq_miss (lookupArt_miss h1)

theorem c8_witness :
    getMutFuel Wleaf 0 0
        { artifacts := [(0, ⟨0, 5⟩), (1, ⟨0, 7⟩)], dyn_states := [],
          dependents := [(0, [1])], known_builders := [],
          built_with := [] } =
      (.ok 5, invalidate_dependents
        { artifacts := [(0, ⟨0, 5⟩), (1, ⟨0, 7⟩)], dyn_states := [],
          dependents := [(0, [1])], known_builders := [],
          built_with := [] } 0) ∧
    find? ((invalidate_dependents
        { artifacts := [(0, ⟨0, 5⟩), (1, ⟨0, 7⟩)], dyn_states := [],
          dependents := [(0, [1])], known_builders := [],
          built_with := [] } 0)).artifacts 1 = none := by
  have hr : Ranked ([(0, [1])] :
      List (BuilderId × List BuilderId)) (fun i => i) := by
    intro p u hmem
    have hmem2 : u ∈ (if (0 : BuilderId) = p then some [1] else
        none).getD ([] : List BuilderId) := hmem
    by_cases hp : (0 : BuilderId) = p
    · rw [if_pos hp] at hmem2
      simp at hmem2
      subst hmem2
      rw [← hp]
      exact Nat.zero_lt_one
    · rw [if_neg hp] at hmem2
      simp at hmem2
  have h := c8_get_mut_invalidates_dependents (W := Wleaf)
    (s := { artifacts := [(0, ⟨0, 5⟩), (1, ⟨0, 7⟩)], dyn_states := [],
            dependents := [(0, [1])], known_builders := [],
            built_with := [] }) hr 0
  exact ⟨h.1 0 ⟨0, 5⟩ rfl rfl, h.2.2.1 1 (by decide) 1 (DepReach.refl 1)⟩

/-- The ids `garbage_collection` reclaims: keys of the `known_builders`
entries whose weak reference no longer upgrades (internal.rs lines
630-634). -/
def deadIds (alive : BuilderId → Bool) (s : RawCache) : List BuilderId :=
  (s.known_builders.filter
    (fun kv => (upgrade_from_weak alive kv.2).isNone)).map (fun kv => kv.1)

theorem isSome_find?_of_mem {V : Type} {m : List (BuilderId × V)}
    {kv : BuilderId × V} (h : kv ∈ m) : (find? m kv.1).isSome = true := by
  induction m with
  | nil => simp at h
  | cons kv0 rest ih =>
      obtain ⟨k0, v0⟩ := kv0
      unfold find?
      by_cases h0 : k0 = kv.1
      · rw [if_pos h0]
        rfl
      · rw [if_neg h0]
        rcases List.mem_cons.mp h with he | hm
        · exfalso
          subst he
          exact h0 rfl
        · exact ih hm

theorem eraseKey_eq_of_none {V : Type} {m : List (BuilderId × V)}
    {k : BuilderId} (h : find? m k = none) : eraseKey m k = m := by
  induction m with
  | nil => rfl
  | cons kv rest ih =>
      obtain ⟨k0, v0⟩ := kv
      unfold find? at h
      by_cases h0 : k0 = k
      · rw [if_pos h0] at h
        cases h
      · rw [if_neg h0] at h
        simp [eraseKey, List.filter_cons, h0] at ih ⊢
        exact ih h

theorem eraseKey_length_of_find {V : Type} {m : List (BuilderId × V)}
    {k : BuilderId} {v : V} (hn : NodupKeys m) (h : find? m k = some v) :
    (eraseKey m k).length = m.length - 1 := by
  induction m with
  | nil => simp [find?] at h
  | cons kv rest ih =>
      obtain ⟨k0, v0⟩ := kv
      have hn2 : k0 ∉ rest.map Prod.fst ∧ NodupKeys rest := by
        simpa [NodupKeys, List.nodup_cons] using hn
      by_cases h0 : k0 = k
      · subst h0
        have hkn : find? rest k0 = none :=
          find?_eq_none_of_not_mem_keys hn2.1
        have he : eraseKey ((k0, v0) :: rest) k0 = eraseKey rest k0 := by
          simp [eraseKey, List.filter_cons]
        rw [he, eraseKey_eq_of_none hkn]
        simp
      · unfold find? at h
        rw [if_neg h0] at h
        have hpos : 0 < rest.length :=
          List.length_pos.mpr (List.ne_nil_of_mem (find?_mem h))
        have hlen := ih hn2.2 h
        have he : eraseKey ((k0, v0) :: rest) k =
            (k0, v0) :: eraseKey rest k := by
          simp [eraseKey, List.filter_cons, h0]
        rw [he, List.length_cons, hlen, List.length_cons]
        omega

theorem gcStep_known (t : RawCache) (b : BuilderId) :
    (gcStep t b).known_builders = eraseKey t.known_builders b := by
  show eraseKey ((invalidate_any t b)).known_builders b = _
  rw [(invalidate_any_invErase t b).2.1]

theorem gcStep_dyn (t : RawCache) (b : BuilderId) :
    (gcStep t b).dyn_states = eraseKey t.dyn_states b := by
  show eraseKey ((invalidate_any t b)).dyn_states b = _
  rw [(invalidate_any_invErase t b).1]

theorem gcStep_art_none {t : RawCache} {b x : BuilderId}
    (h : find? t.artifacts x = none) :
    find? ((gcStep t b)).artifacts x = none := by
  show find? ((invalidate_any t b)).artifacts x = none
  rcases (invalidate_any_invErase t b).2.2.2.1 x with he | he
  · rw [he]
    exact h
  · exact he

theorem gcStep_art_self (t : RawCache) (b : BuilderId) :
    find? ((gcStep t b)).artifacts b = none := by
  show find? ((invalidate_any t b)).artifacts b = none
  exact invAnyFuel_art_self t.dependents.length t b

theorem gcFold_known : ∀ (l : List BuilderId) (t : RawCache) (q : BuilderId),
    find? ((l.foldl gcStep t)).known_builders q =
      if q ∈ l then none else find? t.known_builders q := by
  intro l
  induction l with
  | nil =>
      intro t q
      simp
  | cons b l ih =>
      intro t q
      show find? ((l.foldl gcStep (gcStep t b))).known_builders q = _
      rw [ih (gcStep t b) q, gcStep_known, find?_eraseKey]
      by_cases hql : q ∈ l
      · simp [hql]
      · by_cases hqb : q = b
        · simp [hql, hqb]
        · simp [hql, hqb]

theorem gcFold_dyn : ∀ (l : List BuilderId) (t : RawCache) (q : BuilderId),
    find? ((l.foldl gcStep t)).dyn_states q =
      if q ∈ l then none else find? t.dyn_states q := by
  intro l
  induction l with
  | nil =>
      intro t q
      simp
  | cons b l ih =>
      intro t q
      show find? ((l.foldl gcStep (gcStep t b))).dyn_states q = _
      rw [ih (gcStep t b) q, gcStep_dyn, find?_eraseKey]
      by_cases hql : q ∈ l
      · simp [hql]
      · by_cases hqb : q = b
        · simp [hql, hqb]
        · simp [hql, hqb]

theorem gcFold_art_none : ∀ (l : List BuilderId) (t : RawCache)
    (x : BuilderId), find? t.artifacts x = none →
    find? ((l.foldl gcStep t)).artifacts x = none := by
  intro l
  induction l with
  | nil =>
      intro t x h
      exact h
  | cons b l ih =>
      intro t x h
      exact ih (gcStep t b) x (gcStep_art_none h)

theorem gcFold_art_mem : ∀ (l : List BuilderId) (t : RawCache)
    (x : BuilderId), x ∈ l →
    find? ((l.foldl gcStep t)).artifacts x = none := by
  intro l
  induction l with
  | nil =>
      intro t x h
      simp at h
  | cons b l ih =>
      intro t x h
      rcases List.mem_cons.mp h with he | hm
      · subst he
        exact gcFold_art_none l (gcStep t x) x (gcStep_art_self t x)
      · exact ih (gcStep t b) x hm

theorem gcFold_length : ∀ (l : List BuilderId) (t : RawCache),
    NodupKeys t.known_builders → l.Nodup →
    (∀ b ∈ l, (find? t.known_builders b).isSome = true) →
    ((l.foldl gcStep t)).known_builders.length =
      t.known_builders.length - l.length := by
  intro l
  induction l with
  | nil =>
      intro t _ _ _
      simp
  | cons b l ih =>
      intro t hk hn hall
      have hb : (find? t.known_builders b).isSome = true :=
        hall b (List.mem_cons_self b l)
      obtain ⟨w, hw⟩ := Option.isSome_iff_exists.mp hb
      have hnc := List.nodup_cons.mp hn
      have hkeq := gcStep_known t b
      have hk2 : NodupKeys ((gcStep t b)).known_builders := by
        rw [hkeq]
        exact nodupKeys_eraseKey hk b
      have hall2 : ∀ c ∈ l, (find? ((gcStep t b)).known_builders c).isSome =
          true := by
        intro c hc
        have hcb : c ≠ b := fun he => hnc.1 (he ▸ hc)
        rw [hkeq, find?_eraseKey_ne _ _ _ hcb]
        exact hall c (List.mem_cons_of_mem b hc)
      show ((l.foldl gcStep (gcStep t b))).known_builders.length = _
      rw [ih (gcStep t b) hk2 hnc.2 hall2, hkeq,
        eraseKey_length_of_find hk hw]
      simp only [List.length_cons]
      omega

theorem deadList_eq {alive : BuilderId → Bool} :
    ∀ (m : List (BuilderId × Weak)), (∀ kv ∈ m, kv.2 = Weak.mk kv.1) →
    ((m.filter (fun kv => (upgrade_from_weak alive kv.2).isNone)).map
        (fun kv => kv.1)) =
      (m.map (fun kv => kv.1)).filter (fun q => !alive q) := by
  intro m
  induction m with
  | nil =>
      intro _
      rfl
  | cons kv rest ih =>
      intro hw
      obtain ⟨k0, w0⟩ := kv
      have hw0 : w0 = Weak.mk k0 := hw (k0, w0) (List.mem_cons_self _ _)
      subst hw0
      have hrest := ih (fun kv hkv => hw kv (List.mem_cons_of_mem _ hkv))
      by_cases ha : alive k0
      · simpa [List.filter_cons, upgrade_from_weak, ha] using hrest
      · simpa [List.filter_cons, upgrade_from_weak, ha] using hrest

/-- C9: for a cache whose `known_builders` keys are unrepeated and whose
weak entries point at their own keys (the reachable-state invariants),
`garbage_collection` reclaims exactly the ids whose weak reference no
longer upgrades: with the weak invariant those are exactly the known ids
the liveness predicate rejects; `number_of_known_builders` drops by
exactly their count; every live id keeps its `known_builders` and
`dyn_states` entries unchanged; and every reclaimed id ends with no
`known_builders`, `dyn_states` or `artifacts` entry. -/
theorem c9_gc_reclaims_exactly_orphans {alive : BuilderId → Bool}
    {s : RawCache} (hk : NodupKeys s.known_builders) (hw : WeakInv s) :
    (deadIds alive s =
        (s.known_builders.map (fun kv => kv.1)).filter (fun q => !alive q)) ∧
    (number_of_known_builders (garbage_collection alive s) =
        number_of_known_builders s - (deadIds alive s).length) ∧
    (∀ q, alive q = true →
        find? ((garbage_collection alive s)).known_builders q =
          find? s.known_builders q ∧
        find? ((garbage_collection alive s)).dyn_states q =
          find? s.dyn_states q) ∧
    (∀ q, q ∈ deadIds alive s →
        find? ((garbage_collection alive s)).known_builders q = none ∧
        find? ((garbage_collection alive s)).dyn_states q = none ∧
        find? ((garbage_collection alive s)).artifacts q = none) := by
  have hgc : garbage_collection alive s = (deadIds alive s).foldl gcStep s :=
    rfl
  have hdead : deadIds alive s =
      (s.known_builders.map (fun kv => kv.1)).filter (fun q => !alive q) :=
    deadList_eq s.known_builders hw
  refine ⟨hdead, ?_, ?_, ?_⟩
  · have hk2 : (s.known_builders.map (fun kv => kv.1)).Nodup := hk
    have hnd : (deadIds alive s).Nodup :=
      ((List.filter_sublist _).map (fun kv : BuilderId × Weak => kv.1)).nodup
        hk2
    have hall : ∀ b ∈ deadIds alive s,
        (find? s.known_builders b).isSome = true := by
      intro b hb
      obtain ⟨kv, hkv, hfst⟩ := List.mem_map.mp hb
      have hmem : kv ∈ s.known_builders := List.mem_of_mem_filter hkv
      rw [← hfst]
      exact isSome_find?_of_mem hmem
    rw [hgc]
    exact gcFold_length (deadIds alive s) s hk hnd hall
  · intro q hq
    have hqd : q ∉ deadIds alive s := by
      intro hmem
      rw [hdead] at hmem
      have := (List.mem_filter.mp hmem).2
      rw [hq] at this
      simp at this
    rw [hgc]
    constructor
    · rw [gcFold_known (deadIds alive s) s q, if_neg hqd]
    · rw [gcFold_dyn (deadIds alive s) s q, if_neg hqd]
  · intro q hq
    rw [hgc]
    refine ⟨?_, ?_, gcFold_art_mem (deadIds alive s) s q hq⟩
    · rw [gcFold_known (deadIds alive s) s q, if_pos hq]
    · rw [gcFold_dyn (deadIds alive s) s q, if_pos hq]

/-- A cache with two registered builders, one artifact and two dyn states,
used to witness the garbage-collection theorem with builder 1 orphaned. -/
def s9c : RawCache :=
  { artifacts := [(1, ⟨0, 5⟩)],
    dyn_states := [(0, ⟨0, 0⟩), (1, ⟨0, 0⟩)],
    dependents := [],
    known_builders := [(0, Weak.mk 0), (1, Weak.mk 1)],
    built_with := [] }

theorem c9_witness :
    number_of_known_builders (garbage_collection (fun q => q == 0) s9c) =
      number_of_known_builders s9c -
        (deadIds (fun q => q == 0) s9c).length ∧
    find? ((garbage_collection (fun q => q == 0) s9c)).known_builders 0 =
      find? s9c.known_builders 0 ∧
    find? ((garbage_collection (fun q => q == 0) s9c)).dyn_states 1 =
      none ∧
    find? ((garbage_collection (fun q => q == 0) s9c)).artifacts 1 =
      none := by
  have h := @c9_gc_reclaims_exactly_orphans (fun q => q == 0) s9c
    (by show (s9c.known_builders.map Prod.fst).Nodup; decide)
    (by show ∀ kv ∈ s9c.known_builders, kv.2 = Weak.mk kv.1; decide)
  have hd : (1 : BuilderId) ∈ deadIds (fun q => q == 0) s9c := by decide
  exact ⟨h.2.1, (h.2.2.1 0 (by decide)).1, (h.2.2.2 1 hd).2.1,
    (h.2.2.2 1 hd).2.2⟩

/-- For a cache whose `known_builders` entries are weak companions of their
own keys, `garbage_collection` driven by a liveness assignment retains an
id's `known_builders` entry exactly when the assignment accepts the id. -/
theorem gc_known_iff {s : RawCache} (hw : WeakInv s)
    (alive : BuilderId → Bool) (q : BuilderId) :
    find? ((garbage_collection alive s)).known_builders q =
      if alive q then find? s.known_builders q else none := by
  have hdead : deadIds alive s =
      (s.known_builders.map (fun kv => kv.1)).filter (fun r => !alive r) :=
    deadList_eq s.known_builders hw
  have hgc : garbage_collection alive s =
      (deadIds alive s).foldl gcStep s := rfl
  rw [hgc, gcFold_known (deadIds alive s) s q]
  by_cases ha : alive q
  · rw [if_pos ha, if_neg ?_]
    intro hmem
    have hfa := (List.mem_filter.mp (hdead ▸ hmem)).2
    simp [ha] at hfa
  · rw [if_neg ha]
    by_cases hmem : q ∈ deadIds alive s
    · rw [if_pos hmem]
    · rw [if_neg hmem]
      apply find?_eq_none_of_not_mem_keys
      intro hkeys
      apply hmem
      rw [hdead]
      refine List.mem_filter.mpr ⟨hkeys, ?_⟩
      simp [ha]

/-- Whether some currently cached artifact value holds a strong builder can
of `b`.  In the super carrier (rc.rs `SuperCache`) every stored artifact is
a `BuilderEntry` whose `builder` field is a strong builder can (its
`CanOwned` impl downcasts `self.builder`, canning.rs lines 277-307; the
older in-tree variant stores `value: ArtifactPromise<dyn Any>` with a
strong `builder: Rc<B>` inside, lib.rs lines 260-263 and 387-401).  The
carrier-supplied `held` decodes a stored value to the id of the builder can
it holds; in the plain `rc.rs` `Cache` the artifact can is `Rc<dyn Any>`
around a plain value and `held` is constantly `none`. -/
def cache_held_strong (held : Val → Option BuilderId) (s : RawCache)
    (b : BuilderId) : Bool :=
  s.artifacts.any (fun kv => held kv.2.val == some b)

/-- `CanStrong::upgrade_from_weak` for `Rc` (canning.rs lines 138-148) is
`Weak::upgrade`, which succeeds exactly when the allocation's strong count
is positive: some strong handle survives, either outside the cache's
tables (`external`: user handles, including any strong cans a user value
outside the artifacts table may hold) or inside a cached artifact value
(`cache_held_strong`). -/
def rc_upgrade_from_weak (external : BuilderId → Bool)
    (held : Val → Option BuilderId) (s : RawCache) (w : Weak) :
    Option BuilderId :=
  if external w.target || cache_held_strong held s w.target
  then some w.target else none

/-- A concrete carrier decoding for the super-cache scenario: the stored
artifact value `0` is a `BuilderEntry` holding the strong builder can of
builder `3`; no other value holds a builder can. -/
def hld3 : Val → Option BuilderId :=
  fun v => if v = 0 then some 3 else none

/-- C10 counterexample: the claim says the cache's bookkeeping never holds
a strong builder reference, so builder liveness is determined solely by
external strong handles.  False in the super carrier: after one `get` the
artifacts table holds a `BuilderEntry` whose value strongly references
builder 3 (decoded by `hld3`); with no external strong handles at all,
builder 3's weak still upgrades while that artifact is cached, and stops
upgrading the moment the artifacts table is cleared — the cached artifact
alone kept the allocation alive. -/
theorem c10_counterexample :
    (rc_upgrade_from_weak (fun _ => false) hld3
        ((getFuel Wleaf 1 0 RawCache.new)).2 (Weak.mk 3)).isSome = true ∧
    (rc_upgrade_from_weak (fun _ => false) hld3
        (clear_artifacts ((getFuel Wleaf 1 0 RawCache.new)).2)
        (Weak.mk 3)).isSome = false := by
  decide

/-- C10 amended: in every reachable state the `known_builders` table itself
holds only weak companions — every entry is the weak handle of its own key
— so that table never keeps a builder alive; but stored artifact values can
hold strong builder cans (the super carrier's `BuilderEntry`), and under
`Rc` weak-upgrade semantics a builder's weak upgrades iff an external
strong handle or a cache-held strong can survives: when no cached artifact
holds the builder (in particular throughout the plain carrier, where `held`
is constantly `none`) liveness is solely external, while a single cached
holder keeps the builder alive regardless of external handles; weak-driven
`garbage_collection` accordingly retains a `known_builders` entry exactly
for the ids kept alive by either kind of strong handle. -/
theorem c10_liveness_external_or_cache_held {W : World} {s : RawCache}
    (h : Reachable W s) (external : BuilderId → Bool)
    (held : Val → Option BuilderId) :
    (∀ kv ∈ s.known_builders, kv.2 = Weak.mk kv.1) ∧
    (∀ b, (∀ kv ∈ s.artifacts, ¬ held kv.2.val = some b) →
        (rc_upgrade_from_weak external held s (Weak.mk b)).isSome =
          external b) ∧
    (∀ b kv, kv ∈ s.artifacts → held kv.2.val = some b →
        (rc_upgrade_from_weak external held s (Weak.mk b)).isSome = true) ∧
    (∀ q, find? ((garbage_collection
          (fun b => external b || cache_held_strong held s b)
          s)).known_builders q =
        if external q || cache_held_strong held s q
        then find? s.known_builders q else none) := by
  refine ⟨reachable_weakInv h, ?_, ?_, ?_⟩
  · intro b hb
    have hch : cache_held_strong held s b = false := by
      unfold cache_held_strong
      rw [List.any_eq_false]
      intro kv hkv
      simp only [beq_iff_eq]
      exact hb kv hkv
    show (if external b || cache_held_strong held s b
        then some b else none).isSome = external b
    rw [hch]
    cases he : external b
    · simp
    · simp
  · intro b kv hkv hheld
    have hch : cache_held_strong held s b = true := by
      unfold cache_held_strong
      rw [List.any_eq_true]
      exact ⟨kv, hkv, by simp [hheld]⟩
    show (if external b || cache_held_strong held s b
        then some b else none).isSome = true
    rw [hch]
    simp
  · intro q
    exact gc_known_iff (reachable_weakInv h)
      (fun b => external b || cache_held_strong held s b) q

theorem c10_witness :
    (rc_upgrade_from_weak (fun _ => false) hld3
        ((getFuel Wleaf 1 0 RawCache.new)).2 (Weak.mk 3)).isSome = true ∧
    find? ((garbage_collection
        (fun b => (fun _ => false) b ||
          cache_held_strong hld3 ((getFuel Wleaf 1 0 RawCache.new)).2 b)
        ((getFuel Wleaf 1 0 RawCache.new)).2)).known_builders 0 = none := by
  have h := c10_liveness_external_or_cache_held (W := Wleaf)
    (Reachable.step Reachable.init (Step.get 1 0)) (fun _ => false) hld3
  refine ⟨h.2.2.1 3 (0, ⟨0, 0⟩) (by decide) (by decide), ?_⟩
  exact (h.2.2.2 0).trans (by decide)

end Daab
